import Mathlib

/-!
Verification development for an LSM document store.

Part 1 models the storage-engine core (segments, catalog, merge cursor,
living cursor, commit lock) — the `lsm` crate, whose behaviour is fixed by
the design document and exercised by its test suite.  Part 2 embeds the
BSON codec (`bson/src/lib.rs`) and the wire-protocol dispatcher
(`server/src/main.rs`) directly from their sources.
-/

set_option linter.unusedVariables false

namespace Lsm

/-- Modelled from the spec: a key is a byte sequence; ordering is
byte-lexicographic, never numeric (the `LinearOrder` on `List Nat` is
exactly lexicographic order on the byte values). -/
abbrev Key := List Nat

/-- Modelled from the spec: the tagged value union of Tombstone,
InlineArray(bytes) and Stream(sequential byte source of declared length);
a stream is modelled by the byte sequence it yields. -/
inductive Blob where
  | Tombstone : Blob
  | Array (a : List Nat) : Blob
  | Stream (a : List Nat) : Blob
deriving DecidableEq

/-- Modelled from the spec: a segment is an immutable, internally sorted,
duplicate-free mapping Key → Blob, modelled as its ordered entry list. -/
abbrev Seg := List (Key × Blob)

/-- Within a segment, keys strictly increase (the segment invariant). -/
def segSorted (s : Seg) : Prop := List.Pairwise (fun a b => a.1 < b.1) s

instance (s : Seg) : Decidable (segSorted s) := by
  unfold segSorted; infer_instance

/-- Lookup of a key in one segment. -/
def segLookup : Seg → Key → Option Blob
  | [], _ => none
  | e :: r, k => if e.1 = k then some e.2 else segLookup r k

/-- Modelled from the spec: the catalog is the append-only ordered sequence
of committed segments, newest last; the value visible for a key is that of
the most recently committed segment containing it. -/
def catLookup : List Seg → Key → Option Blob
  | [], _ => none
  | s :: c, k =>
    match catLookup c k with
    | some b => some b
    | none => segLookup s k

/-- First-some choice on option values (the shadowing combinator: a newer
lookup result hides an older one). -/
def oor (a b : Option Blob) : Option Blob :=
  match a with
  | some x => some x
  | none => b

/-- Insert an entry into a key-sorted entry list, replacing an entry with an
equal key (the inserted, newer entry wins). -/
def insEntry (e : Key × Blob) : Seg → Seg
  | [] => [e]
  | f :: r =>
    if e.1 < f.1 then e :: f :: r
    else if f.1 < e.1 then f :: insEntry e r
    else e :: r

/-- Modelled from the spec: two-way merge of a newer sorted segment into an
older one; on duplicate keys the most-recently-committed (second) segment's
value wins. -/
def merge2 (old new : Seg) : Seg := new.foldl (fun acc e => insEntry e acc) old

/-- Modelled from the spec: the logically sorted key-union view a MultiCursor
exposes over a catalog (newest segment last, winning ties). -/
def mergeSegs (c : List Seg) : Seg := c.foldl merge2 []

/-- Modelled from the spec: a cursor position is one of before-first, on an
entry, or after-last. -/
inductive Pos where
  | beforeFirst : Pos
  | atIdx (i : Nat) : Pos
  | afterLast : Pos
deriving DecidableEq

/-- Validity of a position over a merged entry list. -/
def posValid (m : Seg) : Pos → Bool
  | .atIdx i => i < m.length
  | _ => false

/-- Key observation, defined only when the cursor is valid. -/
def keyAt (m : Seg) : Pos → Option Key
  | .atIdx i => (m[i]?).map (·.1)
  | _ => none

/-- Value observation, defined only when the cursor is valid. -/
def valueAt (m : Seg) : Pos → Option Blob
  | .atIdx i => (m[i]?).map (·.2)
  | _ => none

/-- Modelled from the spec: First moves to the lowest key, or is invalid if
the view is empty. -/
def mcFirst (m : Seg) : Pos := if m.length = 0 then .afterLast else .atIdx 0

/-- Modelled from the spec: Last moves to the highest key, or is invalid if
the view is empty. -/
def mcLast (m : Seg) : Pos := if m.length = 0 then .beforeFirst else .atIdx (m.length - 1)

/-- Modelled from the spec: Next moves one key forward; moving past the end
sets after-last, with no wraparound. -/
def mcNext (m : Seg) : Pos → Pos
  | .beforeFirst => mcFirst m
  | .atIdx i => if i + 1 < m.length then .atIdx (i + 1) else .afterLast
  | .afterLast => .afterLast

/-- Modelled from the spec: Prev moves one key backward; moving past the
start sets before-first, with no wraparound. -/
def mcPrev (m : Seg) : Pos → Pos
  | .afterLast => mcLast m
  | .atIdx i => if i = 0 then .beforeFirst else .atIdx (i - 1)
  | .beforeFirst => .beforeFirst

/-- The three seek modes of the cursor interface. -/
inductive SeekOp where
  | SEEK_EQ : SeekOp
  | SEEK_LE : SeekOp
  | SEEK_GE : SeekOp
deriving DecidableEq

/-- Index of the first entry whose key is not below `k` (the list's length
when there is none). -/
def firstGE (k : Key) : Seg → Nat
  | [] => 0
  | e :: r => if e.1 < k then firstGE k r + 1 else 0

/-- Index of the first entry whose key is above `k` (the list's length when
there is none). -/
def firstGT (k : Key) : Seg → Nat
  | [] => 0
  | e :: r => if e.1 ≤ k then firstGT k r + 1 else 0

/-- Modelled from the spec: three-way seek as a direct positioning
operation; EQ lands exactly on the key or is invalid, LE on the greatest
key ≤ target, GE on the least key ≥ target. -/
def mcSeek (m : Seg) (k : Key) : SeekOp → Pos
  | .SEEK_EQ =>
    match m[firstGE k m]? with
    | some e => if e.1 = k then .atIdx (firstGE k m) else .afterLast
    | none => .afterLast
  | .SEEK_GE =>
    if firstGE k m < m.length then .atIdx (firstGE k m) else .afterLast
  | .SEEK_LE =>
    if firstGT k m = 0 then .beforeFirst else .atIdx (firstGT k m - 1)

/-- Liveness: an entry is live unless its value is a tombstone. -/
def isLive : Blob → Bool
  | .Tombstone => false
  | _ => true

/-- Boolean test that index `j` holds a live entry of `m`. -/
def liveAt (m : Seg) (j : Nat) : Bool :=
  match m[j]? with
  | some e => isLive e.2
  | none => false

/-- Offset of the first live entry of a list (the list's length if none). -/
def firstLive : Seg → Nat
  | [] => 0
  | e :: r => if isLive e.2 then 0 else firstLive r + 1

/-- Skip forward (by internal Next stepping) to the first live entry at or
after the position; past the end the cursor becomes after-last. -/
def skipF (m : Seg) : Pos → Pos
  | .atIdx i =>
    if i + firstLive (m.drop i) < m.length then .atIdx (i + firstLive (m.drop i))
    else .afterLast
  | p => p

/-- Downward scan for the last live entry at or below index `i`. -/
def skipBIdx (m : Seg) : Nat → Pos
  | 0 => if liveAt m 0 then .atIdx 0 else .beforeFirst
  | i + 1 => if liveAt m (i + 1) then .atIdx (i + 1) else skipBIdx m i

/-- Skip backward (by internal Prev stepping) to the first live entry at or
before the position; past the start the cursor becomes before-first. -/
def skipB (m : Seg) : Pos → Pos
  | .atIdx i => if i < m.length then skipBIdx m i else .afterLast
  | p => p

/-- Modelled from the spec: LivingCursor First — land on the lowest live
key, or invalid if none. -/
def lcFirst (m : Seg) : Pos := skipF m (mcFirst m)

/-- Modelled from the spec: LivingCursor Last — land on the highest live
key, or invalid if none. -/
def lcLast (m : Seg) : Pos := skipB m (mcLast m)

/-- Modelled from the spec: LivingCursor Next — step then skip tombstones
forward. -/
def lcNext (m : Seg) (p : Pos) : Pos := skipF m (mcNext m p)

/-- Modelled from the spec: LivingCursor Prev — step then skip tombstones
backward. -/
def lcPrev (m : Seg) (p : Pos) : Pos := skipB m (mcPrev m p)

/-- Modelled from the spec: LivingCursor Seek — EQ onto a tombstoned key
reports invalid, never the tombstone; LE/GE skip to the nearest live
neighbour in the requested direction. -/
def lcSeek (m : Seg) (k : Key) : SeekOp → Pos
  | .SEEK_EQ =>
    match mcSeek m k .SEEK_EQ with
    | .atIdx i => if liveAt m i then .atIdx i else .afterLast
    | _ => .afterLast
  | .SEEK_LE => skipB m (mcSeek m k .SEEK_LE)
  | .SEEK_GE => skipF m (mcSeek m k .SEEK_GE)

/-- Position of the LivingCursor after First followed by `n` Next calls. -/
def lcIterF (m : Seg) : Nat → Pos
  | 0 => lcFirst m
  | n + 1 => lcNext m (lcIterF m n)

/-- Position of the LivingCursor after Last followed by `n` Prev calls. -/
def lcIterB (m : Seg) : Nat → Pos
  | 0 => lcLast m
  | n + 1 => lcPrev m (lcIterB m n)

/-- Keys of the live (non-tombstone) entries of a merged view. -/
def liveKeys (m : Seg) : List Key := (m.filter (fun e => isLive e.2)).map (·.1)

/-- Modelled from the spec: the database state is the versioned catalog. -/
structure DbState where
  catalog : List Seg
  version : Nat
deriving DecidableEq

/-- Error kinds surfaced by the engine boundary. -/
inductive DbError where
  | IOError : DbError
  | ConsistencyError : DbError
deriving DecidableEq

/-- Modelled from the spec: commitSegments atomically appends the handles,
in order, to the end of the catalog, producing a new version; a durability
failure on the catalog record (the `fail` flag) yields IOError and leaves
the catalog at the prior version, never partially committed. -/
def commitSegments (fail : Bool) (db : DbState) (segs : List Seg) :
    DbState × Except DbError Unit :=
  if fail then (db, .error .IOError)
  else ({ catalog := db.catalog ++ segs, version := db.version + 1 }, .ok ())

/-- Modelled from the spec: WriteUnsorted sorts the mapping by key ascending
into one immutable sorted run. -/
def writeSegment (entries : List (Key × Blob)) : Seg :=
  entries.foldr insEntry []

/-- Per-adjacent-pair strict-increase check used by the sorted-sequence
writer. -/
def checkSorted : List (Key × Blob) → Bool
  | [] => true
  | [_] => true
  | a :: b :: r => (decide (a.1 < b.1)) && checkSorted (b :: r)

/-- Modelled from the spec: WriteSorted skips sorting but cheaply verifies
the strictly-increasing precondition per adjacent pair, failing with
ConsistencyError rather than silently emitting a corrupt segment. -/
def writeSortedSeq (entries : List (Key × Blob)) : Except DbError Seg :=
  if checkSorted entries then .ok entries else .error .ConsistencyError

/-- Modelled from the spec: a cursor captures the current segment list at
open time (its snapshot) and starts before the first key. -/
structure Cursor where
  snapshot : List Seg
  pos : Pos
deriving DecidableEq

/-- Modelled from the spec: OpenCursor captures the current segment list and
builds the MultiCursor → LivingCursor over it. -/
def openCursor (db : DbState) : Cursor := ⟨db.catalog, .beforeFirst⟩

/-- The merged living view a cursor reads: always its own snapshot. -/
def curView (c : Cursor) : Seg := mergeSegs c.snapshot

/-- The operations of the cursor interface. -/
inductive CursorOp where
  | First : CursorOp
  | Last : CursorOp
  | Next : CursorOp
  | Prev : CursorOp
  | Seek (k : Key) (op : SeekOp) : CursorOp
deriving DecidableEq

/-- Apply one LivingCursor operation to a cursor. -/
def applyOp (c : Cursor) : CursorOp → Cursor
  | .First => { c with pos := lcFirst (curView c) }
  | .Last => { c with pos := lcLast (curView c) }
  | .Next => { c with pos := lcNext (curView c) c.pos }
  | .Prev => { c with pos := lcPrev (curView c) c.pos }
  | .Seek k op => { c with pos := lcSeek (curView c) k op }

/-- Run a sequence of cursor operations. -/
def runOps (c : Cursor) (ops : List CursorOp) : Cursor := ops.foldl applyOp c

/-- Whether the cursor is on a key. -/
def curValid (c : Cursor) : Bool := posValid (curView c) c.pos

/-- Key() observation of a cursor. -/
def curKey (c : Cursor) : Option Key := keyAt (curView c) c.pos

/-- Value() observation of a cursor. -/
def curValue (c : Cursor) : Option Blob := valueAt (curView c) c.pos

/-- Modelled from the spec: the whole-system state — the database plus the
currently open cursors. -/
structure World where
  db : DbState
  cursors : List Cursor
deriving DecidableEq

/-- System events: a successful commit, opening a cursor, or one cursor
operation on the cursor with the given index. -/
inductive Event where
  | commit (segs : List Seg) : Event
  | openCur : Event
  | curOp (i : Nat) (op : CursorOp) : Event

/-- Apply a function to the element at one index of a list. -/
def modifyIdx (f : Cursor → Cursor) : List Cursor → Nat → List Cursor
  | [], _ => []
  | c :: r, 0 => f c :: r
  | c :: r, i + 1 => c :: modifyIdx f r i

/-- One system step: commits append to the catalog and touch no cursor;
cursor operations act on the addressed cursor's own snapshot. -/
def stepW (w : World) : Event → World
  | .commit segs => { w with db := (commitSegments false w.db segs).1 }
  | .openCur => { w with cursors := w.cursors ++ [openCursor w.db] }
  | .curOp i op => { w with cursors := modifyIdx (fun c => applyOp c op) w.cursors i }

/-- Run a sequence of system events. -/
def runW (w : World) (es : List Event) : World := es.foldl stepW w

/-- The operations a sequence of events applies to the cursor at index `i`. -/
def opsFor (i : Nat) : List Event → List CursorOp
  | [] => []
  | .curOp j op :: es => if j = i then op :: opsFor i es else opsFor i es
  | _ :: es => opsFor i es

/-- Concrete two-segment catalog tombstoning key `"b"` (bytes `[98]`). -/
def wCatC1 : List Seg :=
  [[([97], Blob.Array [49]), ([98], Blob.Array [50]), ([99], Blob.Array [51])],
   [([98], Blob.Tombstone)]]

/-- Concrete first segment writing `"b" ↦ "2"`. -/
def wS1 : Seg := [([98], Blob.Array [50])]

/-- Concrete second segment overwriting `"b" ↦ "5"`. -/
def wS2 : Seg := [([98], Blob.Array [53])]

/-- Concrete catalog where an older segment holds keys `"c"`, `"g"` exactly
and a newer segment holds only the nearby key `"e"`. -/
def wCatC3 : List Seg :=
  [[([99], Blob.Array [51]), ([103], Blob.Array [55])], [([101], Blob.Array [53])]]

/-- Database holding the committed segment mapping `"8"`, `"10"`, `"20"`
(written unsorted, sorted by the writer) to the empty value. -/
def wDbC5 : DbState :=
  (commitSegments false ⟨[], 0⟩
    [writeSegment [([56], Blob.Array []), ([49, 48], Blob.Array []), ([50, 48], Blob.Array [])]]).1

/-- World with one open cursor over the empty catalog. -/
def wWorldC6 : World := ⟨⟨[], 0⟩, [openCursor ⟨[], 0⟩]⟩

end Lsm

namespace Bson

/-!
Embedding of `bson/src/lib.rs`.  Bytes are `Nat`s below 256; numeric
payloads (`f64`, `i32`, `i64`, Rust `String`s) are carried by their byte
content, since the codec moves them byte-for-byte: `BDouble` holds the 8
little-endian bytes of the float, strings hold their UTF-8 bytes.  The
little-endian packing helpers of the `misc::endian` / `misc::bufndx`
crates (not part of this repository's sources) are modelled as standard
little-endian byte packing; Rust slice-indexing panics on truncated input
are modelled by `Option` failure.
-/

/-- Little-endian bytes of a number, `w` bytes wide (as `i32_to_bytes_le` /
`i64_to_bytes_le` produce). -/
def natToLE : Nat → Nat → List Nat
  | 0, _ => []
  | w + 1, n => n % 256 :: natToLE w (n / 256)

/-- Value of a little-endian byte list. -/
def leToNat : List Nat → Nat
  | [] => 0
  | b :: r => b + 256 * leToNat r

/-- Two's-complement interpretation of a `w`-byte unsigned value, as Rust
reads an `i32`/`i64` from its bytes. -/
def decodeSigned (w : Nat) (u : Nat) : Int :=
  if u < 2 ^ (8 * w - 1) then (u : Int) else (u : Int) - 2 ^ (8 * w)

/-- Little-endian bytes of a signed value, `w` bytes wide. -/
def intToLE (w : Nat) (n : Int) : List Nat := natToLE w (n % 2 ^ (8 * w)).toNat

/-- `BsonValue` of the source, with byte-level payloads. -/
inductive BsonValue where
  | BDouble (bits : List Nat) : BsonValue
  | BString (s : List Nat) : BsonValue
  | BInt64 (n : Int) : BsonValue
  | BInt32 (n : Int) : BsonValue
  | BUndefined : BsonValue
  | BObjectID (a : List Nat) : BsonValue
  | BNull : BsonValue
  | BRegex (expr : List Nat) (opts : List Nat) : BsonValue
  | BJSCode (s : List Nat) : BsonValue
  | BJSCodeWithScope (s : List Nat) : BsonValue
  | BBinary (subtype : Nat) (ba : List Nat) : BsonValue
  | BMinKey : BsonValue
  | BMaxKey : BsonValue
  | BDateTime (n : Int) : BsonValue
  | BTimeStamp (n : Int) : BsonValue
  | BBoolean (b : Bool) : BsonValue
  | BArray (vals : List BsonValue) : BsonValue
  | BDocument (pairs : List (List Nat × BsonValue)) : BsonValue

/-- `getTypeNumber_u8` of the source. -/
def typeNum : BsonValue → Nat
  | .BDouble _ => 1
  | .BString _ => 2
  | .BDocument _ => 3
  | .BArray _ => 4
  | .BBinary _ _ => 5
  | .BUndefined => 6
  | .BObjectID _ => 7
  | .BBoolean _ => 8
  | .BDateTime _ => 9
  | .BNull => 10
  | .BRegex _ _ => 11
  | .BJSCode _ => 13
  | .BJSCodeWithScope _ => 15
  | .BInt32 _ => 16
  | .BTimeStamp _ => 17
  | .BInt64 _ => 18
  | .BMinKey => 255
  | .BMaxKey => 127

/-- `vec_push_c_string`: the bytes followed by a NUL terminator. -/
def cstringBytes (s : List Nat) : List Nat := s ++ [0]

/-- `vec_push_bson_string`: `(len+1)` as a 4-byte little-endian prefix, the
bytes, and a NUL terminator. -/
def bsonStringBytes (s : List Nat) : List Nat := natToLE 4 (s.length + 1) ++ s ++ [0]

/-- The document/array frame written by `to_bson`: a 4-byte length covering
the whole frame (body plus the 4 length bytes plus the closing NUL), the
body, and the closing NUL. -/
def docFrame (body : List Nat) : List Nat := natToLE 4 (body.length + 5) ++ body ++ [0]

/-- The decimal digit bytes of `n`, most significant first, as
`format!` renders an array index (accumulator-passing, fuel-bounded). -/
def decDigitsCore : Nat → Nat → List Nat → List Nat
  | 0, _, acc => acc
  | fuel + 1, n, acc =>
    if n / 10 = 0 then (48 + n % 10) :: acc
    else decDigitsCore fuel (n / 10) ((48 + n % 10) :: acc)

/-- Decimal representation of an array index key. -/
def decDigits (n : Nat) : List Nat := decDigitsCore (n + 1) n []

mutual

/-- `BsonValue::to_bson` of the source: the bytes this value's body appends
to the output vector (the element type byte and key are written by the
enclosing document/array loop). -/
def to_bson : BsonValue → List Nat
  | .BDouble bits => bits
  | .BInt32 n => intToLE 4 n
  | .BDateTime n => intToLE 8 n
  | .BTimeStamp n => intToLE 8 n
  | .BInt64 n => intToLE 8 n
  | .BString s => bsonStringBytes s
  | .BObjectID a => a
  | .BBoolean b => [if b then 1 else 0]
  | .BNull => []
  | .BMinKey => []
  | .BMaxKey => []
  | .BRegex expr opts => cstringBytes expr ++ cstringBytes opts
  | .BUndefined => []
  | .BJSCode s => bsonStringBytes s
  | .BJSCodeWithScope _ => []
  | .BBinary subtype ba => natToLE 4 ba.length ++ subtype :: ba
  | .BArray vals => docFrame (encArrayEntries vals 0)
  | .BDocument pairs => docFrame (encPairs pairs)

/-- The entry loop of `to_bson` for a document: element type byte, key as a
C string, then the value body, for each pair. -/
def encPairs : List (List Nat × BsonValue) → List Nat
  | [] => []
  | (k, v) :: ps => typeNum v :: (cstringBytes k ++ to_bson v ++ encPairs ps)

/-- The entry loop of `to_bson` for an array: as for a document, with the
decimal rendering of the running index as the key. -/
def encArrayEntries : List BsonValue → Nat → List Nat
  | [], _ => []
  | v :: vs, i => typeNum v :: (cstringBytes (decDigits i) ++ to_bson v ++ encArrayEntries vs (i + 1))

end

/-- The key/value pair list an array's entries decode to (keys are the
decimal index renderings). -/
def pairsOf : List BsonValue → Nat → List (List Nat × BsonValue)
  | [], _ => []
  | v :: vs, i => (decDigits i, v) :: pairsOf vs (i + 1)

mutual

/-- Well-formedness making a value encodable: no `BJSCodeWithScope` anywhere
(`to_bson` panics on it), C-string-encoded bytes (keys, regex fields) are
NUL-free, payload byte lists have byte values and the fixed widths the
constructors carry in Rust, lengths fit in an `i32`, and integer payloads
are in their Rust range. -/
def encOkV : BsonValue → Bool
  | .BDouble bits => bits.length = 8 && bits.all (· < 256)
  | .BString s => s.length + 1 < 2 ^ 31 && s.all (· < 256)
  | .BInt64 n => decide (-(2 ^ 63) ≤ n) && decide (n < 2 ^ 63)
  | .BInt32 n => decide (-(2 ^ 31) ≤ n) && decide (n < 2 ^ 31)
  | .BUndefined => true
  | .BObjectID a => a.length = 12 && a.all (· < 256)
  | .BNull => true
  | .BRegex expr opts =>
    expr.all (fun b => b ≠ 0 && b < 256) && opts.all (fun b => b ≠ 0 && b < 256)
  | .BJSCode s => s.length + 1 < 2 ^ 31 && s.all (· < 256)
  | .BJSCodeWithScope _ => false
  | .BBinary subtype ba => subtype < 256 && ba.length < 2 ^ 31 && ba.all (· < 256)
  | .BMinKey => true
  | .BMaxKey => true
  | .BDateTime n => decide (-(2 ^ 63) ≤ n) && decide (n < 2 ^ 63)
  | .BTimeStamp n => decide (-(2 ^ 63) ≤ n) && decide (n < 2 ^ 63)
  | .BBoolean _ => true
  | .BArray vals => encOkVals vals
  | .BDocument pairs => encOkPairs pairs

/-- Encodability of a document's pairs: NUL-free byte keys, encodable
values. -/
def encOkPairs : List (List Nat × BsonValue) → Bool
  | [] => true
  | (k, v) :: ps => k.all (fun b => b ≠ 0 && b < 256) && encOkV v && encOkPairs ps

/-- Encodability of an array's elements. -/
def encOkVals : List BsonValue → Bool
  | [] => true
  | v :: vs => encOkV v && encOkVals vs

end

mutual

/-- Fuel needed by the decoder to reconstruct one value. -/
def bfuel : BsonValue → Nat
  | .BArray vals => 2 + pfuelVals vals
  | .BDocument pairs => 2 + pfuelPairs pairs
  | _ => 1

/-- Fuel needed by the decoder's entry loop for a document's pairs. -/
def pfuelPairs : List (List Nat × BsonValue) → Nat
  | [] => 1
  | (_, v) :: ps => 1 + max (bfuel v) (pfuelPairs ps)

/-- Fuel needed by the decoder's entry loop for an array's elements. -/
def pfuelVals : List BsonValue → Nat
  | [] => 1
  | v :: vs => 1 + max (bfuel v) (pfuelVals vs)

end

/-- Split off the first `n` bytes; reading past the end of the buffer (a
Rust slice-indexing panic) is failure. -/
def takeN (n : Nat) (ba : List Nat) : Option (List Nat × List Nat) :=
  if n ≤ ba.length then some (ba.take n, ba.drop n) else none

/-- `bufndx::slurp_u32_le`: read 4 bytes little-endian. -/
def slurpU32 (ba : List Nat) : Option (Nat × List Nat) :=
  (takeN 4 ba).map (fun t => (leToNat t.1, t.2))

/-- `bufndx::slurp_i32_le`: read 4 bytes little-endian, two's complement. -/
def slurpI32 (ba : List Nat) : Option (Int × List Nat) :=
  (takeN 4 ba).map (fun t => (decodeSigned 4 (leToNat t.1), t.2))

/-- `bufndx::slurp_i64_le`: read 8 bytes little-endian, two's complement. -/
def slurpI64 (ba : List Nat) : Option (Int × List Nat) :=
  (takeN 8 ba).map (fun t => (decodeSigned 8 (leToNat t.1), t.2))

/-- `bufndx::slurp_f64_le`: read the 8 bytes of the float. -/
def slurpF64 (ba : List Nat) : Option (List Nat × List Nat) := takeN 8 ba

/-- `bufndx::slurp_cstring`: bytes up to the NUL terminator. -/
def slurpCString : List Nat → Option (List Nat × List Nat)
  | [] => none
  | b :: r => if b = 0 then some ([], r) else (slurpCString r).map (fun t => (b :: t.1, t.2))

/-- `slurp_bson_string`: a 4-byte length `len`, then `len` bytes of which
the last is the terminator; `len = 0` underflows the Rust slice bounds. -/
def slurpBsonString (ba : List Nat) : Option (List Nat × List Nat) := do
  let (lb, r) ← takeN 4 ba
  let len := leToNat lb
  if len = 0 then none
  else do
    let (sb, r2) ← takeN len r
    some (sb.take (len - 1), r2)

/-- `slurp_binary`: a 4-byte length, the subtype byte, then the payload. -/
def slurpBinary (ba : List Nat) : Option (BsonValue × List Nat) := do
  let (lb, r) ← takeN 4 ba
  match r with
  | [] => none
  | st :: r2 => do
    let (bb, r3) ← takeN (leToNat lb) r2
    some (.BBinary st bb, r3)

mutual

/-- `slurp_bson_value` of the source: decode one value of element type `t`;
the fuel argument only bounds the recursion depth.  An element type the
source does not know makes the Rust code panic, modelled as failure. -/
def slurpValue : Nat → Nat → List Nat → Option (BsonValue × List Nat)
  | 0, _, _ => none
  | fuel + 1, t, ba =>
    match t with
    | 1 => (slurpF64 ba).map (fun r => (.BDouble r.1, r.2))
    | 2 => (slurpBsonString ba).map (fun r => (.BString r.1, r.2))
    | 3 => (slurpDocPairs fuel ba).map (fun r => (.BDocument r.1, r.2))
    | 4 => (slurpDocPairs fuel ba).map (fun r => (.BArray (r.1.map (·.2)), r.2))
    | 5 => slurpBinary ba
    | 6 => some (.BUndefined, ba)
    | 7 => (takeN 12 ba).map (fun r => (.BObjectID r.1, r.2))
    | 8 =>
      match ba with
      | [] => none
      | b :: r => some (.BBoolean (b ≠ 0), r)
    | 9 => (slurpI64 ba).map (fun r => (.BDateTime r.1, r.2))
    | 10 => some (.BNull, ba)
    | 11 => do
      let (e, r) ← slurpCString ba
      let (o, r2) ← slurpCString r
      some (.BRegex e o, r2)
    | 12 => do
      let (_, r) ← slurpBsonString ba
      let (ob, r2) ← takeN 12 r
      some (.BObjectID ob, r2)
    | 13 => (slurpBsonString ba).map (fun r => (.BJSCode r.1, r.2))
    | 15 => do
      let (_, r) ← slurpU32 ba
      let (s, r2) ← slurpBsonString r
      let (_, r3) ← slurpDocPairs fuel r2
      some (.BJSCodeWithScope s, r3)
    | 16 => (slurpI32 ba).map (fun r => (.BInt32 r.1, r.2))
    | 17 => (slurpI64 ba).map (fun r => (.BTimeStamp r.1, r.2))
    | 18 => (slurpI64 ba).map (fun r => (.BInt64 r.1, r.2))
    | 127 => some (.BMaxKey, ba)
    | 255 => some (.BMinKey, ba)
    | _ => none

/-- `slurp_document_pairs` of the source: consume the 4 length bytes (the
source never verifies them) then run the entry loop. -/
def slurpDocPairs : Nat → List Nat → Option (List (List Nat × BsonValue) × List Nat)
  | 0, _ => none
  | fuel + 1, ba => do
    let (_, r) ← takeN 4 ba
    slurpPairsLoop fuel r

/-- The `while ba[i] != 0` entry loop of `slurp_document_pairs`: element
type byte, key C string, value, until the closing NUL. -/
def slurpPairsLoop : Nat → List Nat → Option (List (List Nat × BsonValue) × List Nat)
  | 0, _ => none
  | fuel + 1, ba =>
    match ba with
    | [] => none
    | t :: r =>
      if t = 0 then some ([], r)
      else do
        let (k, r2) ← slurpCString r
        let (v, r3) ← slurpValue fuel t r2
        let (ps, r4) ← slurpPairsLoop fuel r3
        some ((k, v) :: ps, r4)

end

/-- `slurp_document` of the source: the pairs, wrapped as a `BDocument`. -/
def slurp_document (fuel : Nat) (ba : List Nat) : Option (BsonValue × List Nat) :=
  (slurpDocPairs fuel ba).map (fun r => (.BDocument r.1, r.2))

/-- `BsonValue::from_bson` of the source: decode a document from the start
of the buffer (the buffer's length plus one always suffices as recursion
fuel, since every nested decoding step consumes bytes). -/
def from_bson (ba : List Nat) : Option BsonValue :=
  (slurp_document (ba.length + 1) ba).map (·.1)

end Bson

namespace Server

/-!
Embedding of `server/src/main.rs`: `slurp_header`, `parse_request` and the
dispatch of `Server::handle_one_message`.
-/

/-- `MsgQuery` of the source. -/
structure MsgQuery where
  q_requestID : Int
  q_flags : Int
  q_fullCollectionName : List Nat
  q_numberToSkip : Int
  q_numberToReturn : Int
  q_query : Bson.BsonValue
  q_returnFieldsSelector : Option Bson.BsonValue

/-- `MsgGetMore` of the source. -/
structure MsgGetMore where
  m_requestID : Int
  m_fullCollectionName : List Nat
  m_numberToReturn : Int
  m_cursorID : Int

/-- `MsgKillCursors` of the source. -/
structure MsgKillCursors where
  k_requestID : Int
  k_cursorIDs : List Int

/-- `Request` of the source. -/
inductive Request where
  | Query (q : MsgQuery) : Request
  | GetMore (m : MsgGetMore) : Request
  | KillCursors (k : MsgKillCursors) : Request

/-- `slurp_header`: messageLength, requestID, responseTo, opCode. -/
def slurp_header (ba : List Nat) : Option ((Int × Int × Int × Int) × List Nat) := do
  let (messageLength, r1) ← Bson.slurpI32 ba
  let (requestID, r2) ← Bson.slurpI32 r1
  let (responseTo, r3) ← Bson.slurpI32 r2
  let (opCode, r4) ← Bson.slurpI32 r3
  some ((messageLength, requestID, responseTo, opCode), r4)

/-- The cursor-id loop of the 2007 arm (`for _ in 0 .. numberOfCursorIDs`). -/
def slurpCursorIDs : Nat → List Nat → Option (List Int × List Nat)
  | 0, ba => some ([], ba)
  | n + 1, ba => do
    let (x, r) ← Bson.slurpI64 ba
    let (xs, r2) ← slurpCursorIDs n r
    some (x :: xs, r2)

/-- The 2004 (OP_QUERY) arm of `parse_request`. -/
def parse2004 (requestID : Int) (r : List Nat) : Option MsgQuery := do
  let (flags, r1) ← Bson.slurpI32 r
  let (fullCollectionName, r2) ← Bson.slurpCString r1
  let (numberToSkip, r3) ← Bson.slurpI32 r2
  let (numberToReturn, r4) ← Bson.slurpI32 r3
  let (query, r5) ← Bson.slurp_document (r4.length + 1) r4
  let returnFieldsSelector ←
    if r5.length ≠ 0 then do
      let (sel, _) ← Bson.slurp_document (r5.length + 1) r5
      some (some sel)
    else some none
  some
    { q_requestID := requestID, q_flags := flags,
      q_fullCollectionName := fullCollectionName,
      q_numberToSkip := numberToSkip, q_numberToReturn := numberToReturn,
      q_query := query, q_returnFieldsSelector := returnFieldsSelector }

/-- The 2005 (OP_GET_MORE) arm of `parse_request`. -/
def parse2005 (requestID : Int) (r : List Nat) : Option MsgGetMore := do
  let (_, r1) ← Bson.slurpI32 r
  let (fullCollectionName, r2) ← Bson.slurpCString r1
  let (numberToReturn, r3) ← Bson.slurpI32 r2
  let (cursorID, _) ← Bson.slurpI64 r3
  some
    { m_requestID := requestID, m_fullCollectionName := fullCollectionName,
      m_numberToReturn := numberToReturn, m_cursorID := cursorID }

/-- The 2007 (OP_KILL_CURSORS) arm of `parse_request`. -/
def parse2007 (requestID : Int) (r : List Nat) : Option MsgKillCursors := do
  let (_, r1) ← Bson.slurpI32 r
  let (numberOfCursorIDs, r2) ← Bson.slurpI32 r1
  let (cursorIDs, _) ← slurpCursorIDs numberOfCursorIDs.toNat r2
  some { k_requestID := requestID, k_cursorIDs := cursorIDs }

/-- `parse_request` of the source: dispatch on the header opcode; 2004 is
OP_QUERY, 2005 OP_GET_MORE, 2007 OP_KILL_CURSORS, anything else an error. -/
def parse_request (ba : List Nat) : Option Request := do
  let ((_, requestID, _, opCode), r) ← slurp_header ba
  if opCode = 2004 then (parse2004 requestID r).map .Query
  else if opCode = 2005 then (parse2005 requestID r).map .GetMore
  else if opCode = 2007 then (parse2007 requestID r).map .KillCursors
  else none

/-- A concrete well-formed OP_GET_MORE message: header with opcode 2005,
ZERO field, collection name `"a"`, numberToReturn 0, cursorID 0. -/
def wMsg2005 : List Nat :=
  [34, 0, 0, 0, 1, 0, 0, 0, 0, 0, 0, 0, 213, 7, 0, 0,
   0, 0, 0, 0, 97, 0, 0, 0, 0, 0, 0, 0, 0, 0, 0, 0, 0, 0]

/-- Observable outcome of `handle_one_message` on one received message. -/
inductive Outcome where
  | nothingRead : Outcome
  | parseFailed : Outcome
  | hitUnimplemented : Outcome
  | replied (bytes : List Nat) : Outcome

/-- `Server::handle_one_message` of the source: nothing read ends the call;
a parse failure propagates the error; a KillCursors or GetMore request
reaches `unimplemented!()` and panics; only a Query request is answered,
with the encoded reply written back.  The reply construction
(`Server::reply_2004` followed by `Reply::encode`) is abstracted as the
`reply2004` parameter, since its content is irrelevant to the dispatch. -/
def handle_one_message (reply2004 : MsgQuery → List Nat) :
    Option (List Nat) → Outcome
  | none => .nothingRead
  | some ba =>
    match parse_request ba with
    | none => .parseFailed
    | some (.KillCursors _) => .hitUnimplemented
    | some (.Query qm) => .replied (reply2004 qm)
    | some (.GetMore _) => .hitUnimplemented

end Server

namespace Lsm

/-! Lemmas about segment lookup, insertion and the merged view. -/

theorem oor_none_right (a : Option Blob) : oor a none = a := by
  cases a <;> rfl

theorem oor_assoc (a b c : Option Blob) : oor (oor a b) c = oor a (oor b c) := by
  cases a <;> cases b <;> rfl

theorem segLookup_eq_none (s : Seg) (k : Key) (h : ∀ e ∈ s, e.1 ≠ k) :
    segLookup s k = none := by
  induction s with
  | nil => rfl
  | cons e r ih =>
    simp only [segLookup]
    rw [if_neg (h e (by simp))]
    exact ih fun f hf => h f (by simp [hf])

theorem catLookup_cons (s : Seg) (c : List Seg) (k : Key) :
    catLookup (s :: c) k = oor (catLookup c k) (segLookup s k) := by
  simp only [catLookup, oor]

theorem mem_insEntry {e f : Key × Blob} {s : Seg} (h : f ∈ insEntry e s) :
    f = e ∨ f ∈ s := by
  induction s with
  | nil => simpa [insEntry] using h
  | cons g r ih =>
    by_cases h1 : e.1 < g.1
    · simp only [insEntry, if_pos h1, List.mem_cons] at h
      rcases h with h | h
      · exact Or.inl h
      · exact Or.inr (List.mem_cons.mpr h)
    · by_cases h2 : g.1 < e.1
      · simp only [insEntry, if_neg h1, if_pos h2, List.mem_cons] at h
        rcases h with h | h
        · exact Or.inr (by simp [h])
        · rcases ih h with h | h
          · exact Or.inl h
          · exact Or.inr (by simp [h])
      · simp only [insEntry, if_neg h1, if_neg h2, List.mem_cons] at h
        rcases h with h | h
        · exact Or.inl h
        · exact Or.inr (by simp [h])

theorem insEntry_sorted {e : Key × Blob} {s : Seg} (hs : segSorted s) :
    segSorted (insEntry e s) := by
  induction s with
  | nil => simp [insEntry, segSorted]
  | cons g r ih =>
    rw [segSorted, List.pairwise_cons] at hs
    obtain ⟨hg, hr⟩ := hs
    by_cases h1 : e.1 < g.1
    · simp only [insEntry, if_pos h1]
      rw [segSorted, List.pairwise_cons]
      refine ⟨?_, ?_⟩
      · intro x hx
        rcases List.mem_cons.mp hx with h | h
        · exact h ▸ h1
        · exact lt_trans h1 (hg x h)
      · rw [List.pairwise_cons]
        exact ⟨hg, hr⟩
    · by_cases h2 : g.1 < e.1
      · simp only [insEntry, if_neg h1, if_pos h2]
        rw [segSorted, List.pairwise_cons]
        refine ⟨?_, ih hr⟩
        intro x hx
        rcases mem_insEntry hx with h | h
        · exact h ▸ h2
        · exact hg x h
      · have he : e.1 = g.1 := le_antisymm (not_lt.mp h2) (not_lt.mp h1)
        simp only [insEntry, if_neg h1, if_neg h2]
        rw [segSorted, List.pairwise_cons]
        exact ⟨fun x hx => he ▸ hg x hx, hr⟩

theorem segLookup_insEntry (e : Key × Blob) (s : Seg) (k : Key) :
    segLookup (insEntry e s) k = if e.1 = k then some e.2 else segLookup s k := by
  induction s with
  | nil => simp [insEntry, segLookup]
  | cons g r ih =>
    by_cases h1 : e.1 < g.1
    · simp only [insEntry, if_pos h1, segLookup]
    · by_cases h2 : g.1 < e.1
      · simp only [insEntry, if_neg h1, if_pos h2, segLookup, ih]
        by_cases h3 : e.1 = k
        · have h4 : g.1 ≠ k := by
            intro hk
            rw [hk, h3] at h2
            exact lt_irrefl k h2
          simp [h3, h4]
        · by_cases h4 : g.1 = k <;> simp [h3, h4]
      · have he : e.1 = g.1 := le_antisymm (not_lt.mp h2) (not_lt.mp h1)
        simp only [insEntry, if_neg h1, if_neg h2, segLookup]
        by_cases h3 : e.1 = k
        · simp [h3]
        · have h4 : g.1 ≠ k := he ▸ h3
          simp [h3, h4]

theorem merge2_sorted {old : Seg} (new : Seg) (hs : segSorted old) :
    segSorted (merge2 old new) := by
  induction new generalizing old with
  | nil => exact hs
  | cons e r ih => exact ih (insEntry_sorted hs)

theorem segLookup_merge2 (k : Key) :
    ∀ (new old : Seg), segSorted new →
      segLookup (merge2 old new) k = oor (segLookup new k) (segLookup old k) := by
  intro new
  induction new with
  | nil => intro old _; simp [merge2, segLookup, oor]
  | cons e r ih =>
    intro old hnew
    rw [segSorted, List.pairwise_cons] at hnew
    obtain ⟨he, hr⟩ := hnew
    have step : merge2 old (e :: r) = merge2 (insEntry e old) r := rfl
    rw [step, ih (insEntry e old) hr, segLookup_insEntry]
    by_cases h3 : e.1 = k
    · have hnone : segLookup r k = none := by
        refine segLookup_eq_none r k fun f hf => ?_
        intro hk
        have hlt := he f hf
        rw [h3, hk] at hlt
        exact lt_irrefl k hlt
      simp [segLookup, h3, hnone, oor]
    · simp only [segLookup, if_neg h3]

theorem foldl_merge2_sorted (c : List Seg) :
    ∀ acc, segSorted acc → segSorted (c.foldl merge2 acc) := by
  induction c with
  | nil => exact fun acc h => h
  | cons s c ih => exact fun acc h => ih (merge2 acc s) (merge2_sorted s h)

theorem mergeSegs_sorted (c : List Seg) : segSorted (mergeSegs c) :=
  foldl_merge2_sorted c [] (by simp [segSorted])

theorem segLookup_foldl (k : Key) (c : List Seg) (hc : ∀ s ∈ c, segSorted s) :
    ∀ acc, segLookup (c.foldl merge2 acc) k = oor (catLookup c k) (segLookup acc k) := by
  induction c with
  | nil => intro acc; simp [catLookup, oor]
  | cons s c ih =>
    intro acc
    have hs : segSorted s := hc s (by simp)
    have hc' : ∀ t ∈ c, segSorted t := fun t ht => hc t (by simp [ht])
    have step : (s :: c).foldl merge2 acc = c.foldl merge2 (merge2 acc s) := rfl
    rw [step, ih hc' (merge2 acc s), segLookup_merge2 k s acc hs, catLookup_cons,
      oor_assoc]

theorem segLookup_mergeSegs (c : List Seg) (k : Key) (hc : ∀ s ∈ c, segSorted s) :
    segLookup (mergeSegs c) k = catLookup c k := by
  have h := segLookup_foldl k c hc []
  simpa [mergeSegs, segLookup, oor_none_right] using h

theorem catLookup_eq_none (c : List Seg) (k : Key)
    (h : ∀ s ∈ c, segLookup s k = none) : catLookup c k = none := by
  induction c with
  | nil => rfl
  | cons s c ih =>
    rw [catLookup_cons, ih fun t ht => h t (by simp [ht]), h s (by simp)]
    rfl

theorem catLookup_append_of_some (c1 c2 : List Seg) (k : Key) (b : Blob)
    (h : catLookup c2 k = some b) : catLookup (c1 ++ c2) k = some b := by
  induction c1 with
  | nil => exact h
  | cons s c ih =>
    rw [List.cons_append, catLookup_cons, ih]
    rfl

theorem catLookup_isSome_of_mem (c : List Seg) (s : Seg) (k : Key) (b : Blob)
    (hmem : s ∈ c) (h : segLookup s k = some b) :
    ∃ b', catLookup c k = some b' := by
  induction c with
  | nil => cases hmem
  | cons t c ih =>
    rcases List.mem_cons.mp hmem with hts | hts
    · subst hts
      rw [catLookup_cons]
      cases hc : catLookup c k with
      | some b' => exact ⟨b', rfl⟩
      | none => exact ⟨b, by simp [oor, h]⟩
    · obtain ⟨b', hb'⟩ := ih hts
      exact ⟨b', by rw [catLookup_cons, hb']; rfl⟩

end Lsm

namespace Lsm

/-! Index-level characterizations of sorted views, seek and skip. -/

theorem sorted_key_lt {m : Seg} (hs : segSorted m) {i j : Nat} {a b : Key × Blob}
    (hij : i < j) (ha : m[i]? = some a) (hb : m[j]? = some b) : a.1 < b.1 := by
  obtain ⟨hi, hia⟩ := List.getElem?_eq_some.mp ha
  obtain ⟨hj, hjb⟩ := List.getElem?_eq_some.mp hb
  have h := List.pairwise_iff_get.mp hs ⟨i, hi⟩ ⟨j, hj⟩ hij
  simpa [List.get_eq_getElem, hia, hjb] using h

theorem sorted_key_unique {m : Seg} (hs : segSorted m) {i j : Nat} {a b : Key × Blob}
    (ha : m[i]? = some a) (hb : m[j]? = some b) (hk : a.1 = b.1) : i = j := by
  rcases lt_trichotomy i j with h | h | h
  · exact absurd (sorted_key_lt hs h ha hb) (by rw [hk]; exact lt_irrefl b.1)
  · exact h
  · exact absurd (sorted_key_lt hs h hb ha) (by rw [hk]; exact lt_irrefl b.1)

theorem segLookup_some_idx {m : Seg} {k : Key} {b : Blob}
    (h : segLookup m k = some b) : ∃ i : Nat, m[i]? = some (k, b) := by
  induction m with
  | nil => simp [segLookup] at h
  | cons e r ih =>
    by_cases h1 : e.1 = k
    · simp only [segLookup, if_pos h1] at h
      have h2 : e.2 = b := Option.some.inj h
      refine ⟨0, ?_⟩
      simp only [List.getElem?_cons_zero]
      exact congrArg some (Prod.ext_iff.mpr ⟨h1, h2⟩)
    · simp only [segLookup, if_neg h1] at h
      obtain ⟨i, hi⟩ := ih h
      exact ⟨i + 1, by simpa using hi⟩

theorem idx_segLookup : ∀ (m : Seg), segSorted m → ∀ (i : Nat) (k : Key) (b : Blob),
    m[i]? = some (k, b) → segLookup m k = some b := by
  intro m
  induction m with
  | nil => intro _ i k b h; simp at h
  | cons e r ih =>
    intro hs i k b h
    rw [segSorted, List.pairwise_cons] at hs
    obtain ⟨he, hr⟩ := hs
    cases i with
    | zero =>
      simp only [List.getElem?_cons_zero] at h
      have h2 := Option.some.inj h
      simp [segLookup, h2]
    | succ i =>
      simp only [List.getElem?_cons_succ] at h
      have hk : e.1 ≠ k := by
        intro hk
        have hmem : (k, b) ∈ r := List.mem_iff_getElem?.mpr ⟨i, h⟩
        have hlt := he (k, b) hmem
        rw [hk] at hlt
        exact lt_irrefl k hlt
      simp only [segLookup, if_neg hk]
      exact ih hr i k b h

theorem firstGE_le (k : Key) (m : Seg) : firstGE k m ≤ m.length := by
  induction m with
  | nil => simp [firstGE]
  | cons e r ih =>
    by_cases h : e.1 < k
    · simp only [firstGE, if_pos h, List.length_cons]
      omega
    · simp [firstGE, h]

theorem firstGE_before (k : Key) : ∀ (m : Seg) (j : Nat) (e : Key × Blob),
    j < firstGE k m → m[j]? = some e → e.1 < k := by
  intro m
  induction m with
  | nil => intro j e hj _; simp [firstGE] at hj
  | cons f r ih =>
    intro j e hj hje
    by_cases h : f.1 < k
    · simp only [firstGE, if_pos h] at hj
      cases j with
      | zero =>
        simp only [List.getElem?_cons_zero] at hje
        exact (Option.some.inj hje) ▸ h
      | succ j => exact ih j e (by omega) (by simpa using hje)
    · simp [firstGE, h] at hj

theorem firstGE_at (k : Key) : ∀ (m : Seg) (e : Key × Blob),
    m[firstGE k m]? = some e → ¬ e.1 < k := by
  intro m
  induction m with
  | nil => intro e he; simp at he
  | cons f r ih =>
    intro e he
    by_cases h : f.1 < k
    · simp only [firstGE, if_pos h, List.getElem?_cons_succ] at he
      exact ih e he
    · simp only [firstGE, if_neg h, List.getElem?_cons_zero] at he
      exact (Option.some.inj he) ▸ h

theorem firstGE_eq (k : Key) (m : Seg) (n : Nat) (hn : n ≤ m.length)
    (hbefore : ∀ (j : Nat) (e : Key × Blob), j < n → m[j]? = some e → e.1 < k)
    (hat : ∀ e : Key × Blob, m[n]? = some e → ¬ e.1 < k) :
    firstGE k m = n := by
  rcases lt_trichotomy (firstGE k m) n with h | h | h
  · have hlt : firstGE k m < m.length := lt_of_lt_of_le h hn
    have he : m[firstGE k m]? = some m[firstGE k m] := List.getElem?_eq_getElem hlt
    exact absurd (hbefore _ _ h he) (firstGE_at k m _ he)
  · exact h
  · have hlt : n < m.length := lt_of_lt_of_le h (firstGE_le k m)
    have he : m[n]? = some m[n] := List.getElem?_eq_getElem hlt
    exact absurd (firstGE_before k m n _ h he) (hat _ he)

theorem firstGT_le (k : Key) (m : Seg) : firstGT k m ≤ m.length := by
  induction m with
  | nil => simp [firstGT]
  | cons e r ih =>
    by_cases h : e.1 ≤ k
    · simp only [firstGT, if_pos h, List.length_cons]
      omega
    · simp [firstGT, h]

theorem firstGT_before (k : Key) : ∀ (m : Seg) (j : Nat) (e : Key × Blob),
    j < firstGT k m → m[j]? = some e → e.1 ≤ k := by
  intro m
  induction m with
  | nil => intro j e hj _; simp [firstGT] at hj
  | cons f r ih =>
    intro j e hj hje
    by_cases h : f.1 ≤ k
    · simp only [firstGT, if_pos h] at hj
      cases j with
      | zero =>
        simp only [List.getElem?_cons_zero] at hje
        exact (Option.some.inj hje) ▸ h
      | succ j => exact ih j e (by omega) (by simpa using hje)
    · simp [firstGT, h] at hj

theorem firstGT_at (k : Key) : ∀ (m : Seg) (e : Key × Blob),
    m[firstGT k m]? = some e → ¬ e.1 ≤ k := by
  intro m
  induction m with
  | nil => intro e he; simp at he
  | cons f r ih =>
    intro e he
    by_cases h : f.1 ≤ k
    · simp only [firstGT, if_pos h, List.getElem?_cons_succ] at he
      exact ih e he
    · simp only [firstGT, if_neg h, List.getElem?_cons_zero] at he
      exact (Option.some.inj he) ▸ h

theorem firstGT_eq (k : Key) (m : Seg) (n : Nat) (hn : n ≤ m.length)
    (hbefore : ∀ (j : Nat) (e : Key × Blob), j < n → m[j]? = some e → e.1 ≤ k)
    (hat : ∀ e : Key × Blob, m[n]? = some e → ¬ e.1 ≤ k) :
    firstGT k m = n := by
  rcases lt_trichotomy (firstGT k m) n with h | h | h
  · have hlt : firstGT k m < m.length := lt_of_lt_of_le h hn
    have he : m[firstGT k m]? = some m[firstGT k m] := List.getElem?_eq_getElem hlt
    exact absurd (hbefore _ _ h he) (firstGT_at k m _ he)
  · exact h
  · have hlt : n < m.length := lt_of_lt_of_le h (firstGT_le k m)
    have he : m[n]? = some m[n] := List.getElem?_eq_getElem hlt
    exact absurd (firstGT_before k m n _ h he) (hat _ he)

theorem liveAt_entry {m : Seg} {l : Nat} {e : Key × Blob} (he : m[l]? = some e) :
    liveAt m l = isLive e.2 := by
  unfold liveAt
  rw [he]

theorem liveAt_oob {m : Seg} {l : Nat} (h : m.length ≤ l) : liveAt m l = false := by
  unfold liveAt
  rw [List.getElem?_eq_none h]

theorem liveAt_iff {m : Seg} {j : Nat} :
    liveAt m j = true ↔ ∃ e, m[j]? = some e ∧ isLive e.2 = true := by
  unfold liveAt
  cases h : m[j]? with
  | none => simp
  | some e => simp

theorem firstLive_le (s : Seg) : firstLive s ≤ s.length := by
  induction s with
  | nil => simp [firstLive]
  | cons e r ih =>
    by_cases h : isLive e.2
    · simp [firstLive, h]
    · simp only [firstLive, if_neg h, List.length_cons]
      omega

theorem firstLive_before : ∀ (s : Seg) (j : Nat) (e : Key × Blob),
    j < firstLive s → s[j]? = some e → isLive e.2 = false := by
  intro s
  induction s with
  | nil => intro j e hj _; simp [firstLive] at hj
  | cons f r ih =>
    intro j e hj hje
    by_cases h : isLive f.2
    · simp [firstLive, h] at hj
    · simp only [firstLive, if_neg h] at hj
      cases j with
      | zero =>
        simp only [List.getElem?_cons_zero] at hje
        rw [← Option.some.inj hje]
        exact Bool.not_eq_true _ ▸ (eq_false_of_ne_true h)
      | succ j => exact ih j e (by omega) (by simpa using hje)

theorem firstLive_at : ∀ (s : Seg) (e : Key × Blob),
    s[firstLive s]? = some e → isLive e.2 = true := by
  intro s
  induction s with
  | nil => intro e he; simp at he
  | cons f r ih =>
    intro e he
    by_cases h : isLive f.2
    · simp only [firstLive, if_pos h, List.getElem?_cons_zero] at he
      rw [← Option.some.inj he]
      exact h
    · simp only [firstLive, if_neg h, List.getElem?_cons_succ] at he
      exact ih e he

theorem skipF_spec (m : Seg) (i : Nat) :
    (∃ j, i ≤ j ∧ skipF m (.atIdx i) = .atIdx j ∧ liveAt m j = true ∧
      ∀ l, i ≤ l → l < j → liveAt m l = false) ∨
    (skipF m (.atIdx i) = .afterLast ∧ ∀ l, i ≤ l → liveAt m l = false) := by
  by_cases h : i + firstLive (m.drop i) < m.length
  · left
    refine ⟨i + firstLive (m.drop i), by omega, by simp [skipF, h], ?_, ?_⟩
    · have he : m[i + firstLive (m.drop i)]? = some m[i + firstLive (m.drop i)] :=
        List.getElem?_eq_getElem h
      have hd : (m.drop i)[firstLive (m.drop i)]? = m[i + firstLive (m.drop i)]? :=
        List.getElem?_drop m i _
      have hl := firstLive_at (m.drop i) _ (hd.trans he)
      rw [liveAt_entry he]
      exact hl
    · intro l hil hlj
      rcases le_or_lt m.length l with hoob | hin
      · exact liveAt_oob hoob
      · have he : m[l]? = some m[l] := List.getElem?_eq_getElem hin
        have hd : (m.drop i)[l - i]? = m[l]? := by
          have hdrop := List.getElem?_drop m i (l - i)
          rwa [Nat.add_sub_cancel' hil] at hdrop
        have hl := firstLive_before (m.drop i) (l - i) _ (by omega) (hd.trans he)
        rw [liveAt_entry he]
        exact hl
  · right
    refine ⟨by simp [skipF, h], ?_⟩
    intro l hil
    rcases le_or_lt m.length l with hoob | hin
    · exact liveAt_oob hoob
    · have he : m[l]? = some m[l] := List.getElem?_eq_getElem hin
      have hd : (m.drop i)[l - i]? = m[l]? := by
        have hdrop := List.getElem?_drop m i (l - i)
        rwa [Nat.add_sub_cancel' hil] at hdrop
      have hlen : (m.drop i).length = m.length - i := List.length_drop i m
      have hl := firstLive_before (m.drop i) (l - i) _ (by omega) (hd.trans he)
      rw [liveAt_entry he]
      exact hl

theorem skipBIdx_spec (m : Seg) : ∀ i : Nat,
    (∃ j, j ≤ i ∧ skipBIdx m i = .atIdx j ∧ liveAt m j = true ∧
      ∀ l, j < l → l ≤ i → liveAt m l = false) ∨
    (skipBIdx m i = .beforeFirst ∧ ∀ l, l ≤ i → liveAt m l = false) := by
  intro i
  induction i with
  | zero =>
    cases h : liveAt m 0 with
    | true =>
      left
      exact ⟨0, le_refl 0, by simp [skipBIdx, h], h, fun l h1 h2 => by omega⟩
    | false =>
      right
      refine ⟨by simp [skipBIdx, h], ?_⟩
      intro l hl
      have hl0 : l = 0 := by omega
      rw [hl0]
      exact h
  | succ i ih =>
    cases h : liveAt m (i + 1) with
    | true =>
      left
      exact ⟨i + 1, le_refl _, by simp [skipBIdx, h], h, fun l h1 h2 => by omega⟩
    | false =>
      rcases ih with ⟨j, hj1, hj2, hj3, hj4⟩ | ⟨h2, h3⟩
      · left
        refine ⟨j, by omega, by simp [skipBIdx, h, hj2], hj3, ?_⟩
        intro l hl1 hl2
        rcases Nat.lt_or_ge l (i + 1) with hc | hc
        · exact hj4 l hl1 (by omega)
        · have hli : l = i + 1 := by omega
          rw [hli]
          exact h
      · right
        refine ⟨by simp [skipBIdx, h, h2], ?_⟩
        intro l hl
        rcases Nat.lt_or_ge l (i + 1) with hc | hc
        · exact h3 l (by omega)
        · have hli : l = i + 1 := by omega
          rw [hli]
          exact h

theorem mem_liveKeys {m : Seg} {k : Key} :
    k ∈ liveKeys m ↔
      ∃ (j : Nat) (e : Key × Blob), m[j]? = some e ∧ e.1 = k ∧ isLive e.2 = true := by
  unfold liveKeys
  rw [List.mem_map]
  constructor
  · rintro ⟨e, he, hk⟩
    rw [List.mem_filter] at he
    obtain ⟨hmem, hlive⟩ := he
    obtain ⟨j, hj⟩ := List.mem_iff_getElem?.mp hmem
    exact ⟨j, e, hj, hk, hlive⟩
  · rintro ⟨j, e, hj, hk, hlive⟩
    exact ⟨e, List.mem_filter.mpr ⟨List.mem_iff_getElem?.mpr ⟨j, hj⟩, hlive⟩, hk⟩

end Lsm

namespace Lsm

/-! Helper lemmas at the cursor level. -/

theorem catalog_entry {c : List Seg} {k : Key} {b : Blob}
    (hc : ∀ s ∈ c, segSorted s) (h : catLookup c k = some b) :
    ∃ i : Nat, (mergeSegs c)[i]? = some (k, b) :=
  segLookup_some_idx ((segLookup_mergeSegs c k hc).trans h)

theorem entry_isWinner {c : List Seg} {k : Key} {b : Blob} {i : Nat}
    (hc : ∀ s ∈ c, segSorted s) (h : (mergeSegs c)[i]? = some (k, b)) :
    catLookup c k = some b :=
  (segLookup_mergeSegs c k hc).symm.trans
    (idx_segLookup (mergeSegs c) (mergeSegs_sorted c) i k b h)

theorem idx_lt_length_of_some {m : Seg} {i : Nat} {e : Key × Blob}
    (h : m[i]? = some e) : i < m.length := by
  obtain ⟨hi, _⟩ := List.getElem?_eq_some.mp h
  exact hi

theorem entry_at_eq {m : Seg} {i : Nat} {e f : Key × Blob}
    (h1 : m[i]? = some e) (h2 : m[i]? = some f) : e = f :=
  Option.some.inj (h1.symm.trans h2)

theorem firstGE_of_entry {m : Seg} (hs : segSorted m) {i : Nat} {k : Key} {b : Blob}
    (h : m[i]? = some (k, b)) : firstGE k m = i := by
  apply firstGE_eq k m i (le_of_lt (idx_lt_length_of_some h))
  · intro j e hj hje
    exact sorted_key_lt hs hj hje h
  · intro e he
    rw [entry_at_eq he h]
    exact lt_irrefl k

theorem firstGT_of_entry {m : Seg} (hs : segSorted m) {i : Nat} {k : Key} {b : Blob}
    (h : m[i]? = some (k, b)) : firstGT k m = i + 1 := by
  apply firstGT_eq k m (i + 1) (idx_lt_length_of_some h)
  · intro j e hj hje
    rcases Nat.lt_or_ge j i with hc | hc
    · exact le_of_lt (sorted_key_lt hs hc hje h)
    · have hji : j = i := by omega
      subst hji
      rw [entry_at_eq hje h]
  · intro e he
    exact not_le.mpr (sorted_key_lt hs (Nat.lt_succ_self i) h he)

theorem mcSeek_EQ_hit {m : Seg} (hs : segSorted m) {i : Nat} {k : Key} {b : Blob}
    (h : m[i]? = some (k, b)) : mcSeek m k .SEEK_EQ = .atIdx i := by
  have hge := firstGE_of_entry hs h
  simp [mcSeek, hge, h]

theorem mcSeek_GE_hit {m : Seg} (hs : segSorted m) {i : Nat} {k : Key} {b : Blob}
    (h : m[i]? = some (k, b)) : mcSeek m k .SEEK_GE = .atIdx i := by
  have hge := firstGE_of_entry hs h
  simp [mcSeek, hge, idx_lt_length_of_some h]

theorem mcSeek_LE_hit {m : Seg} (hs : segSorted m) {i : Nat} {k : Key} {b : Blob}
    (h : m[i]? = some (k, b)) : mcSeek m k .SEEK_LE = .atIdx i := by
  have hgt := firstGT_of_entry hs h
  simp [mcSeek, hgt]

theorem skipF_inv (m : Seg) (p : Pos) :
    ∀ i : Nat, skipF m p = .atIdx i → liveAt m i = true := by
  intro i h
  cases p with
  | beforeFirst => simp [skipF] at h
  | afterLast => simp [skipF] at h
  | atIdx j =>
    rcases skipF_spec m j with ⟨j', _, heq, hlive, _⟩ | ⟨heq, _⟩
    · rw [heq] at h
      rw [← Pos.atIdx.inj h]
      exact hlive
    · rw [heq] at h
      cases h

theorem skipB_inv (m : Seg) (p : Pos) :
    ∀ i : Nat, skipB m p = .atIdx i → liveAt m i = true := by
  intro i h
  cases p with
  | beforeFirst => simp [skipB] at h
  | afterLast => simp [skipB] at h
  | atIdx j =>
    by_cases hj : j < m.length
    · simp only [skipB, if_pos hj] at h
      rcases skipBIdx_spec m j with ⟨j', _, heq, hlive, _⟩ | ⟨heq, _⟩
      · rw [heq] at h
        rw [← Pos.atIdx.inj h]
        exact hlive
      · rw [heq] at h
        cases h
    · simp only [skipB, if_neg hj] at h
      cases h

theorem lcIterF_inv (m : Seg) (n : Nat) :
    ∀ i : Nat, lcIterF m n = .atIdx i → liveAt m i = true := by
  cases n with
  | zero => exact skipF_inv m (mcFirst m)
  | succ n => exact skipF_inv m (mcNext m (lcIterF m n))

theorem lcIterB_inv (m : Seg) (n : Nat) :
    ∀ i : Nat, lcIterB m n = .atIdx i → liveAt m i = true := by
  cases n with
  | zero => exact skipB_inv m (mcLast m)
  | succ n => exact skipB_inv m (mcPrev m (lcIterB m n))

theorem lcSeek_inv (m : Seg) (k : Key) (op : SeekOp) :
    ∀ i : Nat, lcSeek m k op = .atIdx i → liveAt m i = true := by
  intro i h
  cases op with
  | SEEK_LE => exact skipB_inv m (mcSeek m k .SEEK_LE) i h
  | SEEK_GE => exact skipF_inv m (mcSeek m k .SEEK_GE) i h
  | SEEK_EQ =>
    simp only [lcSeek] at h
    cases hmc : mcSeek m k .SEEK_EQ with
    | atIdx j =>
      rw [hmc] at h
      by_cases hl : liveAt m j
      · simp only [if_pos hl] at h
        rw [← Pos.atIdx.inj h]
        exact hl
      · simp only [if_neg hl] at h
        cases h
    | beforeFirst => rw [hmc] at h; cases h
    | afterLast => rw [hmc] at h; cases h

theorem keyAt_some {m : Seg} {p : Pos} {k : Key} (h : keyAt m p = some k) :
    ∃ (i : Nat) (e : Key × Blob), p = .atIdx i ∧ m[i]? = some e ∧ e.1 = k := by
  cases p with
  | beforeFirst => simp [keyAt] at h
  | afterLast => simp [keyAt] at h
  | atIdx i =>
    simp only [keyAt] at h
    cases he : m[i]? with
    | none => rw [he] at h; cases h
    | some e =>
      rw [he] at h
      exact ⟨i, e, rfl, he, Option.some.inj h⟩

end Lsm

namespace Lsm

/-- C1: Tombstone law.  For every committed catalog of sorted segments in
which the most recently committed segment containing key `K` maps it to a
Tombstone (the catalog lookup of `K` wins with a Tombstone), a LivingCursor
opened afterwards never visits `K` during forward (First/Next) or backward
(Last/Prev) enumeration; Seek(K, EQ) leaves the cursor invalid; Seek(K, LE)
positions on the greatest live key below `K` when one exists and is invalid
otherwise; and Seek(K, GE) positions on the least live key above `K` when
one exists and is invalid otherwise. -/
theorem claim_C1 (c : List Seg) (K : Key)
    (hc : ∀ s ∈ c, segSorted s)
    (ht : catLookup c K = some Blob.Tombstone) :
    (∀ n : Nat, keyAt (mergeSegs c) (lcIterF (mergeSegs c) n) ≠ some K) ∧
    (∀ n : Nat, keyAt (mergeSegs c) (lcIterB (mergeSegs c) n) ≠ some K) ∧
    posValid (mergeSegs c) (lcSeek (mergeSegs c) K .SEEK_EQ) = false ∧
    ((∃ k', k' ∈ liveKeys (mergeSegs c) ∧ k' < K) →
      ∃ k', keyAt (mergeSegs c) (lcSeek (mergeSegs c) K .SEEK_LE) = some k' ∧
        k' ∈ liveKeys (mergeSegs c) ∧ k' < K ∧
        ∀ k'', k'' ∈ liveKeys (mergeSegs c) → k'' < K → k'' ≤ k') ∧
    ((¬ ∃ k', k' ∈ liveKeys (mergeSegs c) ∧ k' < K) →
      posValid (mergeSegs c) (lcSeek (mergeSegs c) K .SEEK_LE) = false) ∧
    ((∃ k', k' ∈ liveKeys (mergeSegs c) ∧ K < k') →
      ∃ k', keyAt (mergeSegs c) (lcSeek (mergeSegs c) K .SEEK_GE) = some k' ∧
        k' ∈ liveKeys (mergeSegs c) ∧ K < k' ∧
        ∀ k'', k'' ∈ liveKeys (mergeSegs c) → K < k'' → k' ≤ k'') ∧
    ((¬ ∃ k', k' ∈ liveKeys (mergeSegs c) ∧ K < k') →
      posValid (mergeSegs c) (lcSeek (mergeSegs c) K .SEEK_GE) = false) := by
  set m := mergeSegs c with hm
  have hs : segSorted m := mergeSegs_sorted c
  obtain ⟨iK, hiK⟩ := catalog_entry hc ht
  have hiKlen := idx_lt_length_of_some hiK
  have hdeadK : liveAt m iK = false := by
    rw [liveAt_entry hiK]
    rfl
  have huniq : ∀ (j : Nat) (e : Key × Blob),
      m[j]? = some e → e.1 = K → j = iK ∧ e = (K, Blob.Tombstone) := by
    intro j e hj hk
    have hji : j = iK := sorted_key_unique hs hj hiK hk
    subst hji
    exact ⟨rfl, entry_at_eq hj hiK⟩
  have hvisit : ∀ (n : Nat) (p : Pos),
      (∀ i : Nat, p = .atIdx i → liveAt m i = true) → keyAt m p ≠ some K := by
    intro n p hinv h
    obtain ⟨i, e, hp, he, hk⟩ := keyAt_some h
    have hlive := hinv i hp
    obtain ⟨_, hee⟩ := huniq i e he hk
    have hdead : liveAt m i = false := by
      rw [liveAt_entry he, hee]
      rfl
    rw [hlive] at hdead
    cases hdead
  have hbelow : ∀ (l : Nat) (e : Key × Blob),
      m[l]? = some e → isLive e.2 = true → e.1 < K → l < iK := by
    intro l e hl hlive hk
    rcases lt_trichotomy l iK with h | h | h
    · exact h
    · subst h
      rw [entry_at_eq hl hiK] at hlive
      cases hlive
    · exact absurd (lt_trans (sorted_key_lt hs h hiK hl) hk) (lt_irrefl K)
  have habove : ∀ (l : Nat) (e : Key × Blob),
      m[l]? = some e → isLive e.2 = true → K < e.1 → iK < l := by
    intro l e hl hlive hk
    rcases lt_trichotomy l iK with h | h | h
    · exact absurd (lt_trans hk (sorted_key_lt hs h hl hiK)) (lt_irrefl K)
    · subst h
      rw [entry_at_eq hl hiK] at hlive
      cases hlive
    · exact h
  have hmcLE := mcSeek_LE_hit hs hiK
  have hlcLE : lcSeek m K .SEEK_LE = skipBIdx m iK := by
    simp [lcSeek, hmcLE, skipB, hiKlen]
  have hmcGE := mcSeek_GE_hit hs hiK
  have hlcGE : lcSeek m K .SEEK_GE = skipF m (.atIdx iK) := by
    simp [lcSeek, hmcGE]
  refine ⟨fun n => hvisit n _ (lcIterF_inv m n),
          fun n => hvisit n _ (lcIterB_inv m n),
          ?_, ?_, ?_, ?_, ?_⟩
  · have hmc := mcSeek_EQ_hit hs hiK
    simp [lcSeek, hmc, hdeadK, posValid]
  · intro hex
    rcases skipBIdx_spec m iK with ⟨j, hj_le, hj_eq, hj_live, hj_gap⟩ | ⟨hinv, hdead_all⟩
    · obtain ⟨ej, hej, hejlive⟩ := liveAt_iff.mp hj_live
      have hjne : j ≠ iK := by
        intro hji
        rw [hji, hdeadK] at hj_live
        cases hj_live
      have hjlt : j < iK := lt_of_le_of_ne hj_le hjne
      have hklt : ej.1 < K := sorted_key_lt hs hjlt hej hiK
      refine ⟨ej.1, ?_, mem_liveKeys.mpr ⟨j, ej, hej, rfl, hejlive⟩, hklt, ?_⟩
      · rw [hlcLE, hj_eq]
        simp [keyAt, hej]
      · intro k'' hk''mem hk''lt
        obtain ⟨l, e, hl, hlk, hllive⟩ := mem_liveKeys.mp hk''mem
        have hlik : l < iK := hbelow l e hl hllive (hlk ▸ hk''lt)
        rcases Nat.lt_or_ge j l with hc | hc
        · have hgap := hj_gap l hc (by omega)
          rw [liveAt_entry hl, hllive] at hgap
          cases hgap
        · rcases Nat.lt_or_ge l j with hc2 | hc2
          · exact hlk ▸ le_of_lt (sorted_key_lt hs hc2 hl hej)
          · have hlj : l = j := by omega
            subst hlj
            rw [← hlk, entry_at_eq hl hej]
    · exfalso
      obtain ⟨k', hk'mem, hk'lt⟩ := hex
      obtain ⟨l, e, hl, hlk, hllive⟩ := mem_liveKeys.mp hk'mem
      have hlik : l < iK := hbelow l e hl hllive (hlk ▸ hk'lt)
      have hdead := hdead_all l (by omega)
      rw [liveAt_entry hl, hllive] at hdead
      cases hdead
  · intro hnex
    rcases skipBIdx_spec m iK with ⟨j, hj_le, hj_eq, hj_live, hj_gap⟩ | ⟨hinv, hdead_all⟩
    · exfalso
      obtain ⟨ej, hej, hejlive⟩ := liveAt_iff.mp hj_live
      have hjne : j ≠ iK := by
        intro hji
        rw [hji, hdeadK] at hj_live
        cases hj_live
      have hjlt : j < iK := lt_of_le_of_ne hj_le hjne
      have hklt : ej.1 < K := sorted_key_lt hs hjlt hej hiK
      exact hnex ⟨ej.1, mem_liveKeys.mpr ⟨j, ej, hej, rfl, hejlive⟩, hklt⟩
    · rw [hlcLE, hinv]
      rfl
  · intro hex
    rcases skipF_spec m iK with ⟨j, hj_ge, hj_eq, hj_live, hj_gap⟩ | ⟨hinv, hdead_all⟩
    · obtain ⟨ej, hej, hejlive⟩ := liveAt_iff.mp hj_live
      have hjne : j ≠ iK := by
        intro hji
        rw [hji, hdeadK] at hj_live
        cases hj_live
      have hjgt : iK < j := lt_of_le_of_ne hj_ge (Ne.symm hjne)
      have hkgt : K < ej.1 := sorted_key_lt hs hjgt hiK hej
      refine ⟨ej.1, ?_, mem_liveKeys.mpr ⟨j, ej, hej, rfl, hejlive⟩, hkgt, ?_⟩
      · rw [hlcGE, hj_eq]
        simp [keyAt, hej]
      · intro k'' hk''mem hk''gt
        obtain ⟨l, e, hl, hlk, hllive⟩ := mem_liveKeys.mp hk''mem
        have hlik : iK < l := habove l e hl hllive (hlk ▸ hk''gt)
        rcases Nat.lt_or_ge l j with hc | hc
        · have hgap := hj_gap l (by omega) hc
          rw [liveAt_entry hl, hllive] at hgap
          cases hgap
        · rcases Nat.lt_or_ge j l with hc2 | hc2
          · exact hlk ▸ le_of_lt (sorted_key_lt hs hc2 hej hl)
          · have hlj : l = j := by omega
            subst hlj
            rw [← hlk, entry_at_eq hl hej]
    · exfalso
      obtain ⟨k', hk'mem, hk'gt⟩ := hex
      obtain ⟨l, e, hl, hlk, hllive⟩ := mem_liveKeys.mp hk'mem
      have hlik : iK < l := habove l e hl hllive (hlk ▸ hk'gt)
      have hdead := hdead_all l (by omega)
      rw [liveAt_entry hl, hllive] at hdead
      cases hdead
  · intro hnex
    rcases skipF_spec m iK with ⟨j, hj_ge, hj_eq, hj_live, hj_gap⟩ | ⟨hinv, hdead_all⟩
    · exfalso
      obtain ⟨ej, hej, hejlive⟩ := liveAt_iff.mp hj_live
      have hjne : j ≠ iK := by
        intro hji
        rw [hji, hdeadK] at hj_live
        cases hj_live
      have hjgt : iK < j := lt_of_le_of_ne hj_ge (Ne.symm hjne)
      have hkgt : K < ej.1 := sorted_key_lt hs hjgt hiK hej
      exact hnex ⟨ej.1, mem_liveKeys.mpr ⟨j, ej, hej, rfl, hejlive⟩, hkgt⟩
    · rw [hlcGE, hinv]
      rfl

end Lsm

namespace Lsm

/-- Witness for C1: the catalog `wCatC1` commits a Tombstone for key `[98]`
over a live older entry; all parts of the tombstone law hold there. -/
theorem claim_C1_witness :
    ((∀ s ∈ wCatC1, segSorted s) ∧ catLookup wCatC1 [98] = some Blob.Tombstone) ∧
    ((∀ n : Nat, keyAt (mergeSegs wCatC1) (lcIterF (mergeSegs wCatC1) n) ≠ some [98]) ∧
    (∀ n : Nat, keyAt (mergeSegs wCatC1) (lcIterB (mergeSegs wCatC1) n) ≠ some [98]) ∧
    posValid (mergeSegs wCatC1) (lcSeek (mergeSegs wCatC1) [98] .SEEK_EQ) = false ∧
    ((∃ k', k' ∈ liveKeys (mergeSegs wCatC1) ∧ k' < [98]) →
      ∃ k', keyAt (mergeSegs wCatC1) (lcSeek (mergeSegs wCatC1) [98] .SEEK_LE) = some k' ∧
        k' ∈ liveKeys (mergeSegs wCatC1) ∧ k' < [98] ∧
        ∀ k'', k'' ∈ liveKeys (mergeSegs wCatC1) → k'' < [98] → k'' ≤ k') ∧
    ((¬ ∃ k', k' ∈ liveKeys (mergeSegs wCatC1) ∧ k' < [98]) →
      posValid (mergeSegs wCatC1) (lcSeek (mergeSegs wCatC1) [98] .SEEK_LE) = false) ∧
    ((∃ k', k' ∈ liveKeys (mergeSegs wCatC1) ∧ [98] < k') →
      ∃ k', keyAt (mergeSegs wCatC1) (lcSeek (mergeSegs wCatC1) [98] .SEEK_GE) = some k' ∧
        k' ∈ liveKeys (mergeSegs wCatC1) ∧ [98] < k' ∧
        ∀ k'', k'' ∈ liveKeys (mergeSegs wCatC1) → [98] < k'' → k' ≤ k'') ∧
    ((¬ ∃ k', k' ∈ liveKeys (mergeSegs wCatC1) ∧ [98] < k') →
      posValid (mergeSegs wCatC1) (lcSeek (mergeSegs wCatC1) [98] .SEEK_GE) = false)) :=
  ⟨⟨by decide, by decide⟩, claim_C1 wCatC1 [98] (by decide) (by decide)⟩

/-- C2: Overwrite law.  When a key `K` carries live values in segments `S1`
(committed earlier) and `S2` (committed later), and no segment committed
after `S2` contains `K`, a LivingCursor opened after both commits resolves
`K` via Seek(K, EQ) followed by Value() to `S2`'s value, and (when the two
values differ) never to `S1`'s value; visibility is decided by the position
in the committed catalog, not by how the segments were written. -/
theorem claim_C2 (c1 c2 c3 : List Seg) (S1 S2 : Seg) (K : Key) (v1 v2 : Blob)
    (hc : ∀ s ∈ c1 ++ S1 :: c2 ++ S2 :: c3, segSorted s)
    (h1 : segLookup S1 K = some v1)
    (h2 : segLookup S2 K = some v2) (hv2 : isLive v2 = true)
    (h3 : ∀ s ∈ c3, segLookup s K = none) :
    keyAt (mergeSegs (c1 ++ S1 :: c2 ++ S2 :: c3))
      (lcSeek (mergeSegs (c1 ++ S1 :: c2 ++ S2 :: c3)) K .SEEK_EQ) = some K ∧
    valueAt (mergeSegs (c1 ++ S1 :: c2 ++ S2 :: c3))
      (lcSeek (mergeSegs (c1 ++ S1 :: c2 ++ S2 :: c3)) K .SEEK_EQ) = some v2 ∧
    (v1 ≠ v2 →
      valueAt (mergeSegs (c1 ++ S1 :: c2 ++ S2 :: c3))
        (lcSeek (mergeSegs (c1 ++ S1 :: c2 ++ S2 :: c3)) K .SEEK_EQ) ≠ some v1) := by
  set cat := c1 ++ S1 :: c2 ++ S2 :: c3 with hcat
  have hsplit : cat = (c1 ++ S1 :: c2) ++ S2 :: c3 := by
    simp [hcat]
  have hwin : catLookup cat K = some v2 := by
    rw [hsplit]
    apply catLookup_append_of_some
    rw [catLookup_cons, catLookup_eq_none c3 K h3, h2]
    rfl
  set m := mergeSegs cat with hmyview
  have hs : segSorted m := mergeSegs_sorted cat
  obtain ⟨iK, hiK⟩ := catalog_entry hc hwin
  have hlive : liveAt m iK = true := by
    rw [liveAt_entry hiK]
    exact hv2
  have hmc := mcSeek_EQ_hit hs hiK
  have hlc : lcSeek m K .SEEK_EQ = .atIdx iK := by
    simp [lcSeek, hmc, hlive]
  refine ⟨?_, ?_, ?_⟩
  · rw [hlc]
    simp [keyAt, hiK]
  · rw [hlc]
    simp [valueAt, hiK]
  · intro hne hcontra
    rw [hlc] at hcontra
    simp [valueAt, hiK] at hcontra
    exact hne hcontra.symm

/-- Witness for C2: committing `wS1` then `wS2` overwrites `"b"`,
and the living cursor resolves it to `"5"`, not `"2"`. -/
theorem claim_C2_witness :
    ((∀ s ∈ [] ++ wS1 :: [] ++ wS2 :: [], segSorted s) ∧
     segLookup wS1 [98] = some (Blob.Array [50]) ∧
     segLookup wS2 [98] = some (Blob.Array [53]) ∧
     isLive (Blob.Array [53]) = true ∧
     (∀ s ∈ ([] : List Seg), segLookup s [98] = none)) ∧
    (keyAt (mergeSegs ([] ++ wS1 :: [] ++ wS2 :: []))
      (lcSeek (mergeSegs ([] ++ wS1 :: [] ++ wS2 :: [])) [98] .SEEK_EQ) = some [98] ∧
    valueAt (mergeSegs ([] ++ wS1 :: [] ++ wS2 :: []))
      (lcSeek (mergeSegs ([] ++ wS1 :: [] ++ wS2 :: [])) [98] .SEEK_EQ) =
        some (Blob.Array [53]) ∧
    (Blob.Array [50] ≠ Blob.Array [53] →
      valueAt (mergeSegs ([] ++ wS1 :: [] ++ wS2 :: []))
        (lcSeek (mergeSegs ([] ++ wS1 :: [] ++ wS2 :: [])) [98] .SEEK_EQ) ≠
          some (Blob.Array [50]))) :=
  ⟨⟨by decide, by decide, by decide, by decide, by decide⟩,
   claim_C2 [] [] [] wS1 wS2 [98] (Blob.Array [50]) (Blob.Array [53])
     (by decide) (by decide) (by decide) (by decide) (by decide)⟩

/-- C3: MultiCursor Seek(K, EQ) exactness.  Whenever some committed segment
contains `K`, the MultiCursor's Seek(K, EQ) lands exactly on `K`, with the
value of the most recently committed segment containing `K` (the catalog
lookup); in particular a newer segment lacking `K` does not shadow an older
segment's exact match. -/
theorem claim_C3 (c : List Seg) (K : Key) (s : Seg) (b : Blob)
    (hc : ∀ t ∈ c, segSorted t) (hmem : s ∈ c) (hs : segLookup s K = some b) :
    ∃ (i : Nat) (bw : Blob),
      mcSeek (mergeSegs c) K .SEEK_EQ = .atIdx i ∧
      keyAt (mergeSegs c) (.atIdx i) = some K ∧
      valueAt (mergeSegs c) (.atIdx i) = some bw ∧
      catLookup c K = some bw := by
  obtain ⟨bw, hbw⟩ := catLookup_isSome_of_mem c s K b hmem hs
  obtain ⟨i, hi⟩ := catalog_entry hc hbw
  refine ⟨i, bw, mcSeek_EQ_hit (mergeSegs_sorted c) hi, ?_, ?_, hbw⟩
  · simp [keyAt, hi]
  · simp [valueAt, hi]

/-- Witness for C3: in `wCatC3` the newer segment holds only `"e"`, yet
Seek("c", EQ) still finds the older segment's exact match. -/
theorem claim_C3_witness :
    ((∀ t ∈ wCatC3, segSorted t) ∧
     [([99], Blob.Array [51]), ([103], Blob.Array [55])] ∈ wCatC3 ∧
     segLookup [([99], Blob.Array [51]), ([103], Blob.Array [55])] [99] =
       some (Blob.Array [51])) ∧
    (∃ (i : Nat) (bw : Blob),
      mcSeek (mergeSegs wCatC3) [99] .SEEK_EQ = .atIdx i ∧
      keyAt (mergeSegs wCatC3) (.atIdx i) = some [99] ∧
      valueAt (mergeSegs wCatC3) (.atIdx i) = some bw ∧
      catLookup wCatC3 [99] = some bw) :=
  ⟨⟨by decide, by decide, by decide⟩,
   claim_C3 wCatC3 [99] [([99], Blob.Array [51]), ([103], Blob.Array [55])]
     (Blob.Array [51]) (by decide) (by decide) (by decide)⟩

theorem applyOp_snapshot (c : Cursor) (op : CursorOp) :
    (applyOp c op).snapshot = c.snapshot := by
  cases op <;> rfl

theorem runOps_snapshot (ops : List CursorOp) :
    ∀ c : Cursor, (runOps c ops).snapshot = c.snapshot := by
  induction ops with
  | nil => intro c; rfl
  | cons op ops ih =>
    intro c
    have hstep : runOps c (op :: ops) = runOps (applyOp c op) ops := rfl
    rw [hstep, ih (applyOp c op), applyOp_snapshot]

/-- C4: Seek convergence.  Over a fixed committed database state, the
cursor state after Seek(k, op) is independent of the cursor's prior
position and of any earlier First/Last/Next/Prev/Seek sequence: running any
operation sequence first and then seeking gives exactly the state of
seeking directly after open.  Validity, key and value observations
therefore agree as well. -/
theorem claim_C4 (db : DbState) (ops : List CursorOp) (k : Key) (op : SeekOp) :
    runOps (openCursor db) (ops ++ [.Seek k op]) =
      applyOp (openCursor db) (.Seek k op) := by
  have happ : runOps (openCursor db) (ops ++ [.Seek k op]) =
      applyOp (runOps (openCursor db) ops) (.Seek k op) := by
    unfold runOps
    rw [List.foldl_append]
    rfl
  rw [happ]
  have hsnap := runOps_snapshot ops (openCursor db)
  show ({ runOps (openCursor db) ops with
    pos := lcSeek (curView (runOps (openCursor db) ops)) k op } : Cursor) =
    { openCursor db with pos := lcSeek (curView (openCursor db)) k op }
  have hview : curView (runOps (openCursor db) ops) = curView (openCursor db) := by
    unfold curView
    rw [hsnap]
  rw [hview]
  show Cursor.mk (runOps (openCursor db) ops).snapshot
      (lcSeek (curView (openCursor db)) k op) =
    Cursor.mk (openCursor db).snapshot (lcSeek (curView (openCursor db)) k op)
  rw [hsnap]

/-- C5: byte-lexicographic ordering.  After committing the single segment
mapping `"8"`, `"10"` and `"20"` (bytes `[56]`, `[49,48]`, `[50,48]`) to
the empty value, First lands on `"10"`, then Next on `"20"`, then `"8"`,
then invalid; Last lands on `"8"`, then Prev on `"20"`, then `"10"`, then
invalid — the order is byte-lexicographic, never numeric. -/
theorem claim_C5 :
    curKey (runOps (openCursor wDbC5) [.First]) = some [49, 48] ∧
    curKey (runOps (openCursor wDbC5) [.First, .Next]) = some [50, 48] ∧
    curKey (runOps (openCursor wDbC5) [.First, .Next, .Next]) = some [56] ∧
    curValid (runOps (openCursor wDbC5) [.First, .Next, .Next, .Next]) = false ∧
    curKey (runOps (openCursor wDbC5) [.Last]) = some [56] ∧
    curKey (runOps (openCursor wDbC5) [.Last, .Prev]) = some [50, 48] ∧
    curKey (runOps (openCursor wDbC5) [.Last, .Prev, .Prev]) = some [49, 48] ∧
    curValid (runOps (openCursor wDbC5) [.Last, .Prev, .Prev, .Prev]) = false := by
  decide

end Lsm

namespace Lsm

theorem modifyIdx_getElem?_eq (f : Cursor → Cursor) :
    ∀ (l : List Cursor) (j : Nat) (c : Cursor),
      l[j]? = some c → (modifyIdx f l j)[j]? = some (f c) := by
  intro l
  induction l with
  | nil => intro j c h; simp at h
  | cons x r ih =>
    intro j c h
    cases j with
    | zero =>
      simp only [List.getElem?_cons_zero] at h
      rw [← Option.some.inj h]
      simp [modifyIdx]
    | succ j =>
      simp only [List.getElem?_cons_succ] at h
      have := ih j c h
      simpa [modifyIdx] using this

theorem modifyIdx_getElem?_ne (f : Cursor → Cursor) :
    ∀ (l : List Cursor) (j i : Nat), j ≠ i → (modifyIdx f l j)[i]? = l[i]? := by
  intro l
  induction l with
  | nil => intro j i _; simp [modifyIdx]
  | cons x r ih =>
    intro j i hji
    cases j with
    | zero =>
      cases i with
      | zero => exact absurd rfl hji
      | succ i => simp [modifyIdx]
    | succ j =>
      cases i with
      | zero => simp [modifyIdx]
      | succ i =>
        have := ih j i (by omega)
        simpa [modifyIdx] using this

/-- C6: snapshot isolation.  A cursor's set of readable segments is fixed at
open time: whatever events follow — commits of new segments, other cursors
opening or moving — the cursor at index `i` evolves exactly as if its own
operations were applied to the cursor as it was when opened, over the
segment list captured then; segments committed afterwards are never
observed by First/Last/Next/Prev/Seek/Key/Value on it. -/
theorem claim_C6 (es : List Event) :
    ∀ (w : World) (i : Nat) (cur : Cursor), w.cursors[i]? = some cur →
      (runW w es).cursors[i]? = some (runOps cur (opsFor i es)) := by
  induction es with
  | nil => intro w i cur h; exact h
  | cons e es ih =>
    intro w i cur h
    have hstep : runW w (e :: es) = runW (stepW w e) es := rfl
    rw [hstep]
    cases e with
    | commit segs =>
      exact ih (stepW w (.commit segs)) i cur h
    | openCur =>
      apply ih
      show (w.cursors ++ [openCursor w.db])[i]? = some cur
      have hi : i < w.cursors.length := (List.getElem?_eq_some.mp h).1
      rw [List.getElem?_append, if_pos hi]
      exact h
    | curOp j op =>
      by_cases hji : j = i
      · subst hji
        have hmod := modifyIdx_getElem?_eq (fun c => applyOp c op) w.cursors j cur h
        have hops : opsFor j (Event.curOp j op :: es) = op :: opsFor j es := by
          simp [opsFor]
        rw [hops]
        have hrun : runOps cur (op :: opsFor j es) =
            runOps (applyOp cur op) (opsFor j es) := rfl
        rw [hrun]
        exact ih (stepW w (.curOp j op)) j (applyOp cur op) hmod
      · have hmod := modifyIdx_getElem?_ne (fun c => applyOp c op) w.cursors j i hji
        have hops : opsFor i (Event.curOp j op :: es) = opsFor i es := by
          simp [opsFor, hji]
        rw [hops]
        apply ih
        show (modifyIdx (fun c => applyOp c op) w.cursors j)[i]? = some cur
        rw [hmod]
        exact h

/-- Witness for C6: a commit after opening leaves the open cursor exactly
as its own operations dictate over the empty snapshot. -/
theorem claim_C6_witness :
    wWorldC6.cursors[0]? = some (openCursor ⟨[], 0⟩) ∧
    (runW wWorldC6 [.commit [[([97], Blob.Array [])]], .curOp 0 .First]).cursors[0]? =
      some (runOps (openCursor ⟨[], 0⟩)
        (opsFor 0 [Event.commit [[([97], Blob.Array [])]], Event.curOp 0 .First])) :=
  ⟨by decide,
   claim_C6 [.commit [[([97], Blob.Array [])]], .curOp 0 .First] wWorldC6 0
     (openCursor ⟨[], 0⟩) (by decide)⟩

/-- C7: atomic commit.  commitSegments either appends all given segment
handles, in order, to the end of the catalog as one new version with an ok
result, or — on a durability failure of the catalog record — returns
IOError and leaves the database exactly at the prior version; in every case
the catalog is either untouched or carries the full ordered append, never a
partial one. -/
theorem claim_C7 (fail : Bool) (db : DbState) (segs : List Seg) :
    (fail = true → commitSegments fail db segs = (db, Except.error DbError.IOError)) ∧
    (fail = false →
      (commitSegments fail db segs).1.catalog = db.catalog ++ segs ∧
      (commitSegments fail db segs).1.version = db.version + 1 ∧
      (commitSegments fail db segs).2 = Except.ok ()) ∧
    ((commitSegments fail db segs).1.catalog = db.catalog ∨
      (commitSegments fail db segs).1.catalog = db.catalog ++ segs) := by
  cases fail <;> simp [commitSegments]

/-- Witness for C7: a failing commit returns IOError and the untouched
database. -/
theorem claim_C7_witness :
    commitSegments true ⟨[], 0⟩ [[([97], Blob.Array [])]] =
      (⟨[], 0⟩, Except.error DbError.IOError) :=
  (claim_C7 true ⟨[], 0⟩ [[([97], Blob.Array [])]]).1 rfl

theorem checkSorted_false : ∀ (l : List (Key × Blob)) (i : Nat) (a b : Key × Blob),
    l[i]? = some a → l[i + 1]? = some b → ¬ a.1 < b.1 → checkSorted l = false := by
  intro l
  induction l with
  | nil => intro i a b h; simp at h
  | cons x r ih =>
    intro i a b ha hb hab
    cases r with
    | nil =>
      have hlen := idx_lt_length_of_some hb
      simp at hlen
    | cons y r' =>
      cases i with
      | zero =>
        simp only [List.getElem?_cons_zero] at ha
        simp only [List.getElem?_cons_succ, List.getElem?_cons_zero] at hb
        have hxa := Option.some.inj ha
        have hyb := Option.some.inj hb
        subst hxa
        subst hyb
        simp [checkSorted, hab]
      | succ i =>
        rw [List.getElem?_cons_succ] at ha hb
        have hr := ih i a b ha hb hab
        simp [checkSorted, hr]

/-- C8: sorted-writer precondition.  Whenever some adjacent pair of the
input sequence is not strictly increasing in byte order, the sorted
sequence writer fails with ConsistencyError — detected by the
per-adjacent-pair check — and produces no segment. -/
theorem claim_C8 (l : List (Key × Blob)) (i : Nat) (a b : Key × Blob)
    (ha : l[i]? = some a) (hb : l[i + 1]? = some b) (hab : ¬ a.1 < b.1) :
    writeSortedSeq l = .error DbError.ConsistencyError ∧
    ∀ s : Seg, writeSortedSeq l ≠ .ok s := by
  have hcf := checkSorted_false l i a b ha hb hab
  constructor
  · simp [writeSortedSeq, hcf]
  · intro s
    simp [writeSortedSeq, hcf]

/-- Witness for C8: the unsorted two-key input `["1", "0"]` is rejected
with ConsistencyError. -/
theorem claim_C8_witness :
    ([([49], Blob.Array []), ([48], Blob.Array [])] : List (Key × Blob))[0]? =
      some ([49], Blob.Array []) ∧
    ([([49], Blob.Array []), ([48], Blob.Array [])] : List (Key × Blob))[0 + 1]? =
      some ([48], Blob.Array []) ∧
    ¬ ([49] : Key) < [48] ∧
    (writeSortedSeq [([49], Blob.Array []), ([48], Blob.Array [])] =
      .error DbError.ConsistencyError ∧
    ∀ s : Seg, writeSortedSeq [([49], Blob.Array []), ([48], Blob.Array [])] ≠ .ok s) :=
  ⟨by decide, by decide, by decide,
   claim_C8 [([49], Blob.Array []), ([48], Blob.Array [])] 0
     ([49], Blob.Array []) ([48], Blob.Array []) (by decide) (by decide) (by decide)⟩

end Lsm

namespace Bson

/-! Byte-packing and primitive-slurp lemmas. -/

theorem natToLE_length (w n : Nat) : (natToLE w n).length = w := by
  induction w generalizing n with
  | zero => rfl
  | succ w ih => simp [natToLE, ih]

theorem leToNat_natToLE (w : Nat) : ∀ n : Nat, leToNat (natToLE w n) = n % 256 ^ w := by
  induction w with
  | zero => intro n; simp [natToLE, leToNat, Nat.mod_one]
  | succ w ih =>
    intro n
    have hmul : (256 : Nat) ^ (w + 1) = 256 * 256 ^ w := by
      rw [pow_succ]
      ring
    rw [natToLE, leToNat, ih (n / 256), hmul, Nat.mod_mul]

theorem takeN_of_length {l : List Nat} {n : Nat} (h : l.length = n) (rest : List Nat) :
    takeN n (l ++ rest) = some (l, rest) := by
  subst h
  unfold takeN
  rw [if_pos (by simp)]
  rw [List.take_left, List.drop_left]

theorem slurpCString_append {s : List Nat} (h : ∀ b ∈ s, b ≠ 0) (rest : List Nat) :
    slurpCString (s ++ 0 :: rest) = some (s, rest) := by
  induction s with
  | nil => simp [slurpCString]
  | cons b r ih =>
    have hb : b ≠ 0 := h b (by simp)
    have hr := ih fun x hx => h x (by simp [hx])
    simp [slurpCString, hb, hr]

theorem slurpBsonString_rt {s : List Nat} (h : s.length + 1 < 2 ^ 32) (rest : List Nat) :
    slurpBsonString (bsonStringBytes s ++ rest) = some (s, rest) := by
  have hassoc : bsonStringBytes s ++ rest =
      natToLE 4 (s.length + 1) ++ ((s ++ [0]) ++ rest) := by
    simp [bsonStringBytes]
  rw [hassoc]
  unfold slurpBsonString
  rw [takeN_of_length (natToLE_length 4 (s.length + 1)) ((s ++ [0]) ++ rest)]
  have hlen : leToNat (natToLE 4 (s.length + 1)) = s.length + 1 := by
    rw [leToNat_natToLE]
    have h4 : (256 : Nat) ^ 4 = 2 ^ 32 := by norm_num
    rw [h4]
    exact Nat.mod_eq_of_lt h
  simp only [Option.bind_eq_bind, Option.some_bind, hlen]
  rw [if_neg (by omega)]
  have hsl : (s ++ [0]).length = s.length + 1 := by simp
  rw [takeN_of_length hsl rest]
  simp only [Option.some_bind]
  have htake : (s ++ [0]).take (s.length + 1 - 1) = s := by
    simp only [Nat.add_sub_cancel]
    exact List.take_left s [0]
  rw [htake]

theorem intToLE_length (w : Nat) (n : Int) : (intToLE w n).length = w :=
  natToLE_length w _

theorem decodeSigned_leToNat_intToLE_4 {n : Int} (h1 : -(2 ^ 31) ≤ n) (h2 : n < 2 ^ 31) :
    decodeSigned 4 (leToNat (intToLE 4 n)) = n := by
  have hp31 : ((2 : Int) ^ 31) = 2147483648 := by norm_num
  have h1' : -(2147483648 : Int) ≤ n := by rw [hp31] at h1; exact h1
  have h2' : n < 2147483648 := by rw [hp31] at h2; exact h2
  have hint : (2 : Int) ^ (8 * 4) = 4294967296 := by norm_num
  have hnat : (256 : Nat) ^ 4 = 4294967296 := by norm_num
  have hnat2 : (2 : Nat) ^ (8 * 4 - 1) = 2147483648 := by norm_num
  unfold intToLE decodeSigned
  rw [leToNat_natToLE, hnat, hnat2, hint]
  have hmod : (n % 4294967296).toNat % 4294967296 = (n % 4294967296).toNat := by
    omega
  rw [hmod]
  omega

theorem decodeSigned_leToNat_intToLE_8 {n : Int} (h1 : -(2 ^ 63) ≤ n) (h2 : n < 2 ^ 63) :
    decodeSigned 8 (leToNat (intToLE 8 n)) = n := by
  have hp63 : ((2 : Int) ^ 63) = 9223372036854775808 := by norm_num
  have h1' : -(9223372036854775808 : Int) ≤ n := by rw [hp63] at h1; exact h1
  have h2' : n < 9223372036854775808 := by rw [hp63] at h2; exact h2
  have hint : (2 : Int) ^ (8 * 8) = 18446744073709551616 := by norm_num
  have hnat : (256 : Nat) ^ 8 = 18446744073709551616 := by norm_num
  have hnat2 : (2 : Nat) ^ (8 * 8 - 1) = 9223372036854775808 := by norm_num
  unfold intToLE decodeSigned
  rw [leToNat_natToLE, hnat, hnat2, hint]
  have hmod : (n % 18446744073709551616).toNat % 18446744073709551616 =
      (n % 18446744073709551616).toNat := by
    omega
  rw [hmod]
  omega

theorem slurpI32_rt {n : Int} (h1 : -(2 ^ 31) ≤ n) (h2 : n < 2 ^ 31) (rest : List Nat) :
    slurpI32 (intToLE 4 n ++ rest) = some (n, rest) := by
  unfold slurpI32
  rw [takeN_of_length (intToLE_length 4 n) rest]
  simp [decodeSigned_leToNat_intToLE_4 h1 h2]

theorem slurpI64_rt {n : Int} (h1 : -(2 ^ 63) ≤ n) (h2 : n < 2 ^ 63) (rest : List Nat) :
    slurpI64 (intToLE 8 n ++ rest) = some (n, rest) := by
  unfold slurpI64
  rw [takeN_of_length (intToLE_length 8 n) rest]
  simp [decodeSigned_leToNat_intToLE_8 h1 h2]

theorem typeNum_ne_zero (v : BsonValue) : typeNum v ≠ 0 := by
  cases v <;> simp [typeNum]

theorem decDigitsCore_mem :
    ∀ (fuel n : Nat) (acc : List Nat) (x : Nat),
      x ∈ decDigitsCore fuel n acc → x ∈ acc ∨ 48 ≤ x := by
  intro fuel
  induction fuel with
  | zero => intro n acc x h; exact Or.inl h
  | succ fuel ih =>
    intro n acc x h
    unfold decDigitsCore at h
    by_cases hdiv : n / 10 = 0
    · rw [if_pos hdiv] at h
      rcases List.mem_cons.mp h with h | h
      · right; omega
      · exact Or.inl h
    · rw [if_neg hdiv] at h
      rcases ih (n / 10) ((48 + n % 10) :: acc) x h with h | h
      · rcases List.mem_cons.mp h with h | h
        · right; omega
        · exact Or.inl h
      · exact Or.inr h

theorem decDigits_ne_zero (n : Nat) : ∀ x ∈ decDigits n, x ≠ 0 := by
  intro x hx
  rcases decDigitsCore_mem (n + 1) n [] x hx with h | h
  · cases h
  · omega

theorem bfuel_pos (v : BsonValue) : 1 ≤ bfuel v := by
  cases v <;> simp [bfuel] <;> omega

theorem pfuelPairs_pos (ps : List (List Nat × BsonValue)) : 1 ≤ pfuelPairs ps := by
  cases ps with
  | nil => simp [pfuelPairs]
  | cons p ps =>
    cases p
    simp [pfuelPairs]

theorem pfuelVals_pos (vs : List BsonValue) : 1 ≤ pfuelVals vs := by
  cases vs <;> simp [pfuelVals]

end Bson

namespace Bson

theorem pairsOf_map_snd : ∀ (vs : List BsonValue) (i : Nat),
    (pairsOf vs i).map (·.2) = vs := by
  intro vs
  induction vs with
  | nil => intro i; rfl
  | cons v vs ih =>
    intro i
    simp [pairsOf, ih (i + 1)]

/-- Round-trip core: with enough fuel, decoding the encoder's output (with
any trailing bytes) succeeds and returns the original value and the
trailing bytes; likewise for the document-pair loop and the array-entry
loop. -/
theorem slurp_rt : ∀ fuel : Nat,
    (∀ (v : BsonValue) (rest : List Nat), encOkV v = true → bfuel v ≤ fuel →
      slurpValue fuel (typeNum v) (to_bson v ++ rest) = some (v, rest)) ∧
    (∀ (ps : List (List Nat × BsonValue)) (rest : List Nat), encOkPairs ps = true →
      pfuelPairs ps ≤ fuel →
      slurpPairsLoop fuel (encPairs ps ++ 0 :: rest) = some (ps, rest)) ∧
    (∀ (vs : List BsonValue) (i : Nat) (rest : List Nat), encOkVals vs = true →
      pfuelVals vs ≤ fuel →
      slurpPairsLoop fuel (encArrayEntries vs i ++ 0 :: rest) = some (pairsOf vs i, rest)) := by
  intro fuel
  induction fuel using Nat.strong_induction_on with
  | _ fuel ih =>
  refine ⟨?_, ?_, ?_⟩
  · intro v rest hok hfuel
    have hpos := bfuel_pos v
    obtain ⟨f, rfl⟩ : ∃ f, fuel = f + 1 := ⟨fuel - 1, by omega⟩
    cases v with
    | BDouble bits =>
      simp only [encOkV, Bool.and_eq_true, decide_eq_true_eq] at hok
      have h1 : slurpF64 (bits ++ rest) = some (bits, rest) :=
        takeN_of_length hok.1 rest
      simp [slurpValue, typeNum, to_bson, h1]
    | BString s =>
      simp only [encOkV, Bool.and_eq_true, decide_eq_true_eq] at hok
      have h1 := slurpBsonString_rt (s := s) (by have := hok.1; omega) rest
      simp [slurpValue, typeNum, to_bson, h1]
    | BInt64 n =>
      simp only [encOkV, Bool.and_eq_true, decide_eq_true_eq] at hok
      have h1 := slurpI64_rt hok.1 hok.2 rest
      simp [slurpValue, typeNum, to_bson, h1]
    | BInt32 n =>
      simp only [encOkV, Bool.and_eq_true, decide_eq_true_eq] at hok
      have h1 := slurpI32_rt hok.1 hok.2 rest
      simp [slurpValue, typeNum, to_bson, h1]
    | BUndefined => rfl
    | BObjectID a =>
      simp only [encOkV, Bool.and_eq_true, decide_eq_true_eq] at hok
      have h1 : takeN 12 (a ++ rest) = some (a, rest) := takeN_of_length hok.1 rest
      simp [slurpValue, typeNum, to_bson, h1]
    | BNull => rfl
    | BRegex expr opts =>
      simp only [encOkV, Bool.and_eq_true, List.all_eq_true, decide_eq_true_eq] at hok
      have hexpr : ∀ b ∈ expr, b ≠ 0 := fun b hb => (hok.1 b hb).1
      have hopts : ∀ b ∈ opts, b ≠ 0 := fun b hb => (hok.2 b hb).1
      have h1 := slurpCString_append hexpr (opts ++ 0 :: rest)
      have h2 := slurpCString_append hopts rest
      simp [slurpValue, typeNum, to_bson, cstringBytes, h1, h2]
    | BJSCode s =>
      simp only [encOkV, Bool.and_eq_true, decide_eq_true_eq] at hok
      have h1 := slurpBsonString_rt (s := s) (by have := hok.1; omega) rest
      simp [slurpValue, typeNum, to_bson, h1]
    | BJSCodeWithScope s => simp [encOkV] at hok
    | BBinary subtype ba =>
      simp only [encOkV, Bool.and_eq_true, decide_eq_true_eq] at hok
      have h1 : takeN 4 (natToLE 4 ba.length ++ (subtype :: (ba ++ rest))) =
          some (natToLE 4 ba.length, subtype :: (ba ++ rest)) :=
        takeN_of_length (natToLE_length 4 ba.length) _
      have h2 : leToNat (natToLE 4 ba.length) = ba.length := by
        rw [leToNat_natToLE]
        have h4 : (256 : Nat) ^ 4 = 4294967296 := by norm_num
        have := hok.1.2
        rw [h4]
        apply Nat.mod_eq_of_lt
        omega
      have h3 : takeN ba.length (ba ++ rest) = some (ba, rest) :=
        takeN_of_length rfl rest
      simp [slurpValue, typeNum, to_bson, slurpBinary, h1, h2, h3]
    | BMinKey => rfl
    | BMaxKey => rfl
    | BDateTime n =>
      simp only [encOkV, Bool.and_eq_true, decide_eq_true_eq] at hok
      have h1 := slurpI64_rt hok.1 hok.2 rest
      simp [slurpValue, typeNum, to_bson, h1]
    | BTimeStamp n =>
      simp only [encOkV, Bool.and_eq_true, decide_eq_true_eq] at hok
      have h1 := slurpI64_rt hok.1 hok.2 rest
      simp [slurpValue, typeNum, to_bson, h1]
    | BBoolean b => cases b <;> rfl
    | BArray vals =>
      simp only [encOkV] at hok
      have hf : 2 + pfuelVals vals ≤ f + 1 := by simpa [bfuel] using hfuel
      have hvpos := pfuelVals_pos vals
      obtain ⟨f2, rfl⟩ : ∃ f2, f = f2 + 1 := ⟨f - 1, by omega⟩
      have hC := (ih f2 (by omega)).2.2 vals 0 rest hok (by omega)
      have h1 : takeN 4 (natToLE 4 ((encArrayEntries vals 0).length + 5) ++
          (encArrayEntries vals 0 ++ 0 :: rest)) =
          some (natToLE 4 ((encArrayEntries vals 0).length + 5),
            encArrayEntries vals 0 ++ 0 :: rest) :=
        takeN_of_length (natToLE_length 4 _) _
      simp [slurpValue, typeNum, to_bson, docFrame, slurpDocPairs, h1, hC,
        pairsOf_map_snd]
    | BDocument pairs =>
      simp only [encOkV] at hok
      have hf : 2 + pfuelPairs pairs ≤ f + 1 := by simpa [bfuel] using hfuel
      have hppos := pfuelPairs_pos pairs
      obtain ⟨f2, rfl⟩ : ∃ f2, f = f2 + 1 := ⟨f - 1, by omega⟩
      have hB := (ih f2 (by omega)).2.1 pairs rest hok (by omega)
      have h1 : takeN 4 (natToLE 4 ((encPairs pairs).length + 5) ++
          (encPairs pairs ++ 0 :: rest)) =
          some (natToLE 4 ((encPairs pairs).length + 5), encPairs pairs ++ 0 :: rest) :=
        takeN_of_length (natToLE_length 4 _) _
      simp [slurpValue, typeNum, to_bson, docFrame, slurpDocPairs, h1, hB]
  · intro ps rest hok hfuel
    have hpos := pfuelPairs_pos ps
    obtain ⟨f, rfl⟩ : ∃ f, fuel = f + 1 := ⟨fuel - 1, by omega⟩
    cases ps with
    | nil => simp [slurpPairsLoop, encPairs]
    | cons p ps' =>
      obtain ⟨k, v⟩ := p
      simp only [encOkPairs, Bool.and_eq_true, List.all_eq_true, decide_eq_true_eq] at hok
      obtain ⟨⟨hkok, hvok⟩, hpok⟩ := hok
      have hkne : ∀ b ∈ k, b ≠ 0 := fun b hb => (hkok b hb).1
      have hfv : bfuel v ≤ f := by
        simp only [pfuelPairs] at hfuel
        omega
      have hfp : pfuelPairs ps' ≤ f := by
        simp only [pfuelPairs] at hfuel
        omega
      have hA := (ih f (by omega)).1 v (encPairs ps' ++ 0 :: rest) hvok hfv
      have hB := (ih f (by omega)).2.1 ps' rest hpok hfp
      have hcs := slurpCString_append hkne (to_bson v ++ (encPairs ps' ++ 0 :: rest))
      have htz := typeNum_ne_zero v
      simp [slurpPairsLoop, encPairs, cstringBytes, htz, hcs, hA, hB]
  · intro vs i rest hok hfuel
    have hpos := pfuelVals_pos vs
    obtain ⟨f, rfl⟩ : ∃ f, fuel = f + 1 := ⟨fuel - 1, by omega⟩
    cases vs with
    | nil => simp [slurpPairsLoop, encArrayEntries, pairsOf]
    | cons v vs' =>
      simp only [encOkVals, Bool.and_eq_true] at hok
      obtain ⟨hvok, hvsok⟩ := hok
      have hkne : ∀ b ∈ decDigits i, b ≠ 0 := decDigits_ne_zero i
      have hfv : bfuel v ≤ f := by
        simp only [pfuelVals] at hfuel
        omega
      have hfp : pfuelVals vs' ≤ f := by
        simp only [pfuelVals] at hfuel
        omega
      have hA := (ih f (by omega)).1 v (encArrayEntries vs' (i + 1) ++ 0 :: rest) hvok hfv
      have hC := (ih f (by omega)).2.2 vs' (i + 1) rest hvsok hfp
      have hcs := slurpCString_append hkne
        (to_bson v ++ (encArrayEntries vs' (i + 1) ++ 0 :: rest))
      have htz := typeNum_ne_zero v
      simp [slurpPairsLoop, encArrayEntries, cstringBytes, pairsOf, htz, hcs, hA, hC]

end Bson

namespace Bson

/-- The decoder fuel a value needs is bounded by its encoding's length,
so a buffer's length plus one is always enough fuel to decode it. -/
theorem fuel_le_len : ∀ n : Nat,
    (∀ v : BsonValue, bfuel v ≤ n → bfuel v ≤ (to_bson v).length + 1) ∧
    (∀ ps : List (List Nat × BsonValue), pfuelPairs ps ≤ n →
      pfuelPairs ps ≤ (encPairs ps).length + 1) ∧
    (∀ (vs : List BsonValue) (i : Nat), pfuelVals vs ≤ n →
      pfuelVals vs ≤ (encArrayEntries vs i).length + 1) := by
  intro n
  induction n using Nat.strong_induction_on with
  | _ n ih =>
  refine ⟨?_, ?_, ?_⟩
  · intro v hn
    cases v with
    | BArray vals =>
      simp only [bfuel] at hn ⊢
      have hvpos := pfuelVals_pos vals
      have hrec := (ih (n - 1) (by omega)).2.2 vals 0 (by omega)
      simp only [to_bson, docFrame, List.length_append, List.length_cons,
        natToLE_length]
      omega
    | BDocument pairs =>
      simp only [bfuel] at hn ⊢
      have hppos := pfuelPairs_pos pairs
      have hrec := (ih (n - 1) (by omega)).2.1 pairs (by omega)
      simp only [to_bson, docFrame, List.length_append, List.length_cons,
        natToLE_length]
      omega
    | BDouble bits => simp [bfuel]
    | BString s => simp [bfuel]
    | BInt64 m => simp [bfuel]
    | BInt32 m => simp [bfuel]
    | BUndefined => simp [bfuel]
    | BObjectID a => simp [bfuel]
    | BNull => simp [bfuel]
    | BRegex expr opts => simp [bfuel]
    | BJSCode s => simp [bfuel]
    | BJSCodeWithScope s => simp [bfuel]
    | BBinary subtype ba => simp [bfuel]
    | BMinKey => simp [bfuel]
    | BMaxKey => simp [bfuel]
    | BDateTime m => simp [bfuel]
    | BTimeStamp m => simp [bfuel]
    | BBoolean b => simp [bfuel]
  · intro ps hn
    cases ps with
    | nil => simp [pfuelPairs]
    | cons p ps' =>
      obtain ⟨k, v⟩ := p
      simp only [pfuelPairs] at hn ⊢
      have hbpos := bfuel_pos v
      have hppos := pfuelPairs_pos ps'
      have hv := (ih (n - 1) (by omega)).1 v (by omega)
      have hp := (ih (n - 1) (by omega)).2.1 ps' (by omega)
      simp only [encPairs, cstringBytes, List.length_cons, List.length_append]
      omega
  · intro vs i hn
    cases vs with
    | nil => simp [pfuelVals]
    | cons v vs' =>
      simp only [pfuelVals] at hn ⊢
      have hbpos := bfuel_pos v
      have hvpos := pfuelVals_pos vs'
      have hv := (ih (n - 1) (by omega)).1 v (by omega)
      have hp := (ih (n - 1) (by omega)).2.2 vs' (i + 1) (by omega)
      simp only [encArrayEntries, cstringBytes, List.length_cons, List.length_append]
      omega

/-- C9: encode/decode round trip.  For every `BDocument` whose nested
values use only encodable variants (no `BJSCodeWithScope`), whose keys and
other C-string-encoded byte strings are NUL-free, and whose lengths fit in
an `i32`, decoding the bytes `to_bson` produces returns a structurally
equal document. -/
theorem claim_C9 (ps : List (List Nat × BsonValue))
    (hok : encOkV (BsonValue.BDocument ps) = true) :
    from_bson (to_bson (BsonValue.BDocument ps)) = some (BsonValue.BDocument ps) := by
  have hokp : encOkPairs ps = true := by simpa [encOkV] using hok
  have hbound : pfuelPairs ps ≤ (encPairs ps).length + 1 :=
    (fuel_le_len (pfuelPairs ps)).2.1 ps (le_refl _)
  have hlen : (to_bson (BsonValue.BDocument ps)).length = (encPairs ps).length + 5 := by
    simp [to_bson, docFrame, natToLE_length]
    omega
  have hB := (slurp_rt ((encPairs ps).length + 5)).2.1 ps [] hokp (by omega)
  have h1 : takeN 4 (natToLE 4 ((encPairs ps).length + 5) ++
      (encPairs ps ++ 0 :: [])) =
      some (natToLE 4 ((encPairs ps).length + 5), encPairs ps ++ 0 :: []) :=
    takeN_of_length (natToLE_length 4 _) _
  unfold from_bson
  rw [hlen]
  simp only [slurp_document]
  have hdoc : slurpDocPairs ((encPairs ps).length + 5 + 1)
      (to_bson (BsonValue.BDocument ps)) = some (ps, []) := by
    show slurpDocPairs ((encPairs ps).length + 5 + 1)
      (docFrame (encPairs ps)) = some (ps, [])
    have hshape : docFrame (encPairs ps) =
        natToLE 4 ((encPairs ps).length + 5) ++ (encPairs ps ++ 0 :: []) := by
      simp [docFrame]
    rw [hshape]
    show (do
      let (_, r) ← takeN 4 (natToLE 4 ((encPairs ps).length + 5) ++
        (encPairs ps ++ 0 :: []))
      slurpPairsLoop ((encPairs ps).length + 5) r) = some (ps, [])
    rw [h1]
    simpa using hB
  rw [hdoc]
  rfl

/-- Witness for C9: a concrete document with a string, an integer, an
array, a nested document and a double round-trips. -/
theorem claim_C9_witness :
    encOkV (BsonValue.BDocument
      [([97], .BInt32 5), ([98], .BString [104, 105]),
       ([99], .BArray [.BBoolean true, .BNull]),
       ([100], .BDouble [0, 0, 0, 0, 0, 0, 9, 64]),
       ([101], .BDocument [([102], .BInt64 (-7))])]) = true ∧
    from_bson (to_bson (BsonValue.BDocument
      [([97], .BInt32 5), ([98], .BString [104, 105]),
       ([99], .BArray [.BBoolean true, .BNull]),
       ([100], .BDouble [0, 0, 0, 0, 0, 0, 9, 64]),
       ([101], .BDocument [([102], .BInt64 (-7))])])) =
    some (BsonValue.BDocument
      [([97], .BInt32 5), ([98], .BString [104, 105]),
       ([99], .BArray [.BBoolean true, .BNull]),
       ([100], .BDouble [0, 0, 0, 0, 0, 0, 9, 64]),
       ([101], .BDocument [([102], .BInt64 (-7))])]) :=
  ⟨by decide, claim_C9 _ (by decide)⟩

end Bson

namespace Server

/-- C10: request dispatch.  For every message whose request parses as
OP_GET_MORE (2005) or OP_KILL_CURSORS (2007), `handle_one_message` parses
successfully and then hits `unimplemented!()` (a panic), returning neither
Ok nor Err; only a message parsing as OP_QUERY (2004) is answered with an
encoded reply; and the parsed constructor pins the header opcode: GetMore
only arises from opcode 2005, KillCursors only from 2007, Query only from
2004. -/
theorem claim_C10 (reply2004 : MsgQuery → List Nat) (ba : List Nat) :
    (∀ m : MsgGetMore, parse_request ba = some (.GetMore m) →
      handle_one_message reply2004 (some ba) = .hitUnimplemented ∧
      ∃ (hdr : Int × Int × Int × Int) (r : List Nat),
        slurp_header ba = some (hdr, r) ∧ hdr.2.2.2 = 2005) ∧
    (∀ kc : MsgKillCursors, parse_request ba = some (.KillCursors kc) →
      handle_one_message reply2004 (some ba) = .hitUnimplemented ∧
      ∃ (hdr : Int × Int × Int × Int) (r : List Nat),
        slurp_header ba = some (hdr, r) ∧ hdr.2.2.2 = 2007) ∧
    (∀ qm : MsgQuery, parse_request ba = some (.Query qm) →
      handle_one_message reply2004 (some ba) = .replied (reply2004 qm) ∧
      ∃ (hdr : Int × Int × Int × Int) (r : List Nat),
        slurp_header ba = some (hdr, r) ∧ hdr.2.2.2 = 2004) := by
  have hop : ∀ req : Request, parse_request ba = some req →
      ∃ (hdr : Int × Int × Int × Int) (r : List Nat),
        slurp_header ba = some (hdr, r) ∧
        (∀ qm : MsgQuery, req = .Query qm → hdr.2.2.2 = 2004) ∧
        (∀ m : MsgGetMore, req = .GetMore m → hdr.2.2.2 = 2005) ∧
        (∀ kc : MsgKillCursors, req = .KillCursors kc → hdr.2.2.2 = 2007) := by
    intro req h
    cases hh : slurp_header ba with
    | none =>
      simp [parse_request, hh] at h
    | some pr =>
      obtain ⟨⟨ml, ri, rt, oc⟩, r⟩ := pr
      simp only [parse_request, hh, Option.bind_eq_bind, Option.some_bind] at h
      by_cases h04 : oc = 2004
      · rw [if_pos h04] at h
        cases hq : parse2004 ri r with
        | none => rw [hq] at h; simp at h
        | some qm =>
          rw [hq] at h
          simp only [Option.map_some'] at h
          have hreq : req = .Query qm := (Option.some.inj h).symm
          subst hreq
          refine ⟨(ml, ri, rt, oc), r, rfl, ?_, ?_, ?_⟩
          · intro _ _
            exact h04
          · intro m hm
            cases hm
          · intro kc hk
            cases hk
      · rw [if_neg h04] at h
        by_cases h05 : oc = 2005
        · rw [if_pos h05] at h
          cases hq : parse2005 ri r with
          | none => rw [hq] at h; simp at h
          | some m =>
            rw [hq] at h
            simp only [Option.map_some'] at h
            have hreq : req = .GetMore m := (Option.some.inj h).symm
            subst hreq
            refine ⟨(ml, ri, rt, oc), r, rfl, ?_, ?_, ?_⟩
            · intro qm hqm
              cases hqm
            · intro _ _
              exact h05
            · intro kc hk
              cases hk
        · rw [if_neg h05] at h
          by_cases h07 : oc = 2007
          · rw [if_pos h07] at h
            cases hq : parse2007 ri r with
            | none => rw [hq] at h; simp at h
            | some kc =>
              rw [hq] at h
              simp only [Option.map_some'] at h
              have hreq : req = .KillCursors kc := (Option.some.inj h).symm
              subst hreq
              refine ⟨(ml, ri, rt, oc), r, rfl, ?_, ?_, ?_⟩
              · intro qm hqm
                cases hqm
              · intro m hm
                cases hm
              · intro _ _
                exact h07
          · rw [if_neg h07] at h
            cases h
  refine ⟨?_, ?_, ?_⟩
  · intro m h
    refine ⟨by simp [handle_one_message, h], ?_⟩
    obtain ⟨hdr, r, hh, _, hgm, _⟩ := hop _ h
    exact ⟨hdr, r, hh, hgm m rfl⟩
  · intro kc h
    refine ⟨by simp [handle_one_message, h], ?_⟩
    obtain ⟨hdr, r, hh, _, _, hkc⟩ := hop _ h
    exact ⟨hdr, r, hh, hkc kc rfl⟩
  · intro qm h
    refine ⟨by simp [handle_one_message, h], ?_⟩
    obtain ⟨hdr, r, hh, hq, _, _⟩ := hop _ h
    exact ⟨hdr, r, hh, hq qm rfl⟩

/-- Witness for C10: the concrete OP_GET_MORE message `wMsg2005` parses as
GetMore and drives `handle_one_message` into `unimplemented!()`. -/
theorem claim_C10_witness :
    parse_request wMsg2005 =
      some (.GetMore { m_requestID := 1, m_fullCollectionName := [97],
                       m_numberToReturn := 0, m_cursorID := 0 }) ∧
    (handle_one_message (fun _ => []) (some wMsg2005) = .hitUnimplemented ∧
     ∃ (hdr : Int × Int × Int × Int) (r : List Nat),
       slurp_header wMsg2005 = some (hdr, r) ∧ hdr.2.2.2 = 2005) :=
  ⟨by rfl,
   (claim_C10 (fun _ => []) wMsg2005).1
     { m_requestID := 1, m_fullCollectionName := [97],
       m_numberToReturn := 0, m_cursorID := 0 } (by rfl)⟩

end Server
